import Mathlib

/-!
Shallow embedding of the binrep signed artifact repository (crates `binrep`
and `binrep-core`) and proofs of the specification claims.

The embedding models:

* semantic versions and their total order, as implemented by the `semver`
  crate (`Version`, `versionCmp`, `versionLe`) and used by `Vec::sort` in
  `Binrep::last_version`;
* version requirements and their matching semantics (`VersionReq`,
  `matchesReq`), as implemented by the `semver` crate's evaluator, which the
  repository relies on for `latest`/`any`/`*` handling;
* the backend namespace (`path.rs`), the metadata documents (`metadata.rs`),
  the HMAC signing pipeline (`crypto/mod.rs`, `crypto/hmac_signature.rs`, the
  concrete SHA digests and HMAC tags are abstracted as function parameters
  `DigestFn` and `HmacFn`), and the repository operations
  (`repository.rs`: `init`, `init_artifact`, `list_artifacts`,
  `list_artifact_versions`, `get_artifact`, `push_artifact`, `pull_artifact`,
  `copy_to_tmpdir`) together with the trace of backend write operations they
  perform;
* the sync engine (`binrep.rs`: `last_version`, `sync`, `parse_version_req`)
  over a destination-directory state.

Backend documents are held structurally (parsing `sane` text is abstracted:
a cell holds the parsed document, is absent, or is unreadable, matching the
`BackendError::ResourceNotFound` / `BackendError::Other` discrimination that
`init_artifact` performs by downcasting).  Local filesystem primitives
(`create_dir_all`, `rename`, `remove_file`, `set_permissions`) are modelled
as reliable; backend cells model the failure modes the repository code
branches on.
-/

namespace Binrep

/-- Byte strings (file payloads, key material, signatures). -/
abbrev Bytes := List Nat

/-! ### Three-way comparators

The `semver` crate implements `Ord` for `Version` by comparing
`major`, `minor`, `patch`, `pre`, `build` lexicographically.  We build the
comparator from small pieces and prove it lawful so that sorting with it has
the usual properties. -/

/-- Three-way comparison of naturals (`u64::cmp`). -/
def cmpNat (a b : Nat) : Ordering :=
  if a < b then .lt else if a = b then .eq else .gt

/-- Lexicographic composition of two comparators on the same type
(`Ordering::then` in Rust). -/
def lexCmp (c₁ c₂ : α → α → Ordering) (a b : α) : Ordering :=
  match c₁ a b with
  | .eq => c₂ a b
  | o => o

/-- Comparator obtained by comparing images under a projection. -/
def keyCmp (f : α → β) (c : β → β → Ordering) (a b : α) : Ordering :=
  c (f a) (f b)

/-- Lexicographic list comparator; a strict prefix is smaller
(as in the `semver` crate's identifier iteration, where the side that runs
out first is `Less`). -/
def cmpList (c : α → α → Ordering) : List α → List α → Ordering
  | [], [] => .eq
  | [], _ :: _ => .lt
  | _ :: _, [] => .gt
  | a :: as, b :: bs =>
    match c a b with
    | .eq => cmpList c as bs
    | o => o

/-- Lawfulness of a three-way comparator: antisymmetry of the verdict under
swapping, and transitivity of the strict and equal verdicts. -/
structure IsLawfulCmp (c : α → α → Ordering) : Prop where
  symm : ∀ a b, c b a = (c a b).swap
  lt_trans : ∀ {a b d}, c a b = .lt → c b d = .lt → c a d = .lt
  eq_trans : ∀ {a b d}, c a b = .eq → c b d = .eq → c a d = .eq
  eq_lt : ∀ {a b d}, c a b = .eq → c b d = .lt → c a d = .lt
  lt_eq : ∀ {a b d}, c a b = .lt → c b d = .eq → c a d = .lt

/-! ### Semantic versions

`semver::Version` with structured pre-release and build identifiers.  The
crate stores `pre` and `build` as validated dot-separated strings; we keep
them pre-split into identifiers.  A pre-release identifier is either numeric
(no leading zeros, compared as a number) or alphanumeric (compared by ASCII
bytes); numeric identifiers order before alphanumeric ones.  A build
identifier is either all digits (compared by length, then bytes) or
alphanumeric; digit identifiers order before alphanumeric ones. -/

/-- Pre-release identifier (one dot-separated component of `semver::Prerelease`). -/
inductive PreId
  | num (n : Nat)
  | alpha (s : Bytes)
deriving DecidableEq

/-- Build-metadata identifier (one dot-separated component of `semver::BuildMetadata`). -/
inductive BuildId
  | digits (ds : Bytes)
  | alpha (s : Bytes)
deriving DecidableEq

/-- Semantic version (`semver::Version`). -/
structure Version where
  major : Nat
  minor : Nat
  patch : Nat
  pre : List PreId
  build : List BuildId
deriving DecidableEq

/-- Comparison of pre-release identifiers (`semver`'s per-identifier rule):
numeric before alphanumeric, numeric by value, alphanumeric by ASCII bytes. -/
def preIdCmp : PreId → PreId → Ordering
  | .num a, .num b => cmpNat a b
  | .num _, .alpha _ => .lt
  | .alpha _, .num _ => .gt
  | .alpha a, .alpha b => cmpList cmpNat a b

/-- Comparison of whole pre-release tags (`Ord for semver::Prerelease`):
an empty tag (a release) is greater than any non-empty tag, non-empty tags
compare identifier-wise with the shorter prefix smaller. -/
def preCmp (a b : List PreId) : Ordering :=
  match a, b with
  | [], [] => .eq
  | [], _ :: _ => .gt
  | _ :: _, [] => .lt
  | _ :: _, _ :: _ => cmpList preIdCmp a b

/-- Comparison of build identifiers (`semver`'s rule): all-digit identifiers
before alphanumeric ones, all-digit ones by length then bytes, alphanumeric
ones by ASCII bytes. -/
def buildIdCmp : BuildId → BuildId → Ordering
  | .digits a, .digits b => lexCmp (keyCmp List.length cmpNat) (cmpList cmpNat) a b
  | .digits _, .alpha _ => .lt
  | .alpha _, .digits _ => .gt
  | .alpha a, .alpha b => cmpList cmpNat a b

/-- Comparison of whole build-metadata tags (`Ord for semver::BuildMetadata`):
an empty tag is least, which coincides with plain list lexicographic order. -/
def buildCmp : List BuildId → List BuildId → Ordering :=
  cmpList buildIdCmp

/-- Comparison of versions (`Ord for semver::Version`): lexicographic on
major, minor, patch, pre-release, build metadata. -/
def versionCmp : Version → Version → Ordering :=
  lexCmp (keyCmp Version.major cmpNat)
    (lexCmp (keyCmp Version.minor cmpNat)
      (lexCmp (keyCmp Version.patch cmpNat)
        (lexCmp (keyCmp Version.pre preCmp)
          (keyCmp Version.build buildCmp))))

/-- The order `Vec::sort` sorts by in `Binrep::last_version`. -/
def versionLe (a b : Version) : Prop := versionCmp a b ≠ .gt

instance : DecidableRel versionLe := fun a b =>
  inferInstanceAs (Decidable (versionCmp a b ≠ .gt))

/-! ### Version rendering

`Display for semver::Version`: `major.minor.patch`, then `-pre` when the
pre-release tag is non-empty, then `+build` when the build tag is non-empty.
This is the rendering `path.rs` interpolates into backend paths via
`format!("{}", artifact_version)`. -/

/-- Render one pre-release identifier. -/
def preIdToString : PreId → String
  | .num n => toString n
  | .alpha s => String.mk (s.map Char.ofNat)

/-- Render one build identifier. -/
def buildIdToString : BuildId → String
  | .digits ds => String.mk (ds.map Char.ofNat)
  | .alpha s => String.mk (s.map Char.ofNat)

/-- Render a version the way `Display for semver::Version` does. -/
def versionToString (v : Version) : String :=
  toString v.major ++ "." ++ toString v.minor ++ "." ++ toString v.patch
    ++ (if v.pre = [] then "" else
          "-" ++ String.intercalate "." (v.pre.map preIdToString))
    ++ (if v.build = [] then "" else
          "+" ++ String.intercalate "." (v.build.map buildIdToString))

/-! ### Version requirements

`semver::VersionReq` and its matching semantics (the crate's `eval.rs`),
which `Binrep::list_artifact_versions` applies via `version_req.matches(v)`
and `parse_version_req` relies on for the `latest`/`any` aliases. -/

/-- Comparison operator of one comparator (`semver::Op`). -/
inductive ReqOp
  | exact
  | greater
  | greaterEq
  | less
  | lessEq
  | tilde
  | caret
  | wildcard
deriving DecidableEq

/-- One comparator of a version requirement (`semver::Comparator`). -/
structure Comparator where
  op : ReqOp
  major : Nat
  minor : Option Nat
  patch : Option Nat
  pre : List PreId
deriving DecidableEq

/-- A version requirement (`semver::VersionReq`): a conjunction of comparators. -/
structure VersionReq where
  comparators : List Comparator
deriving DecidableEq

/-- The wildcard requirement `*` (`VersionReq::STAR`): no comparators. -/
def starReq : VersionReq := ⟨[]⟩

/-- The crate's `matches_exact`. -/
def matchesExact (c : Comparator) (v : Version) : Bool :=
  decide (v.major = c.major)
    && (match c.minor with | none => true | some minor => decide (v.minor = minor))
    && (match c.patch with | none => true | some patch => decide (v.patch = patch))
    && decide (v.pre = c.pre)

/-- The crate's `matches_greater`. -/
def matchesGreater (c : Comparator) (v : Version) : Bool :=
  if v.major ≠ c.major then v.major > c.major
  else match c.minor with
    | none => false
    | some minor =>
      if v.minor ≠ minor then v.minor > minor
      else match c.patch with
        | none => false
        | some patch =>
          if v.patch ≠ patch then v.patch > patch
          else preCmp v.pre c.pre = .gt

/-- The crate's `matches_less`. -/
def matchesLess (c : Comparator) (v : Version) : Bool :=
  if v.major ≠ c.major then v.major < c.major
  else match c.minor with
    | none => false
    | some minor =>
      if v.minor ≠ minor then v.minor < minor
      else match c.patch with
        | none => false
        | some patch =>
          if v.patch ≠ patch then v.patch < patch
          else preCmp v.pre c.pre = .lt

/-- The crate's `matches_tilde`. -/
def matchesTilde (c : Comparator) (v : Version) : Bool :=
  if v.major ≠ c.major then false
  else if (match c.minor with | none => false | some minor => decide (v.minor ≠ minor)) then
    false
  else match c.patch with
    | none => preCmp v.pre c.pre ≠ .lt
    | some patch =>
      if v.patch ≠ patch then v.patch > patch
      else preCmp v.pre c.pre ≠ .lt

/-- The crate's `matches_caret`. -/
def matchesCaret (c : Comparator) (v : Version) : Bool :=
  if v.major ≠ c.major then false
  else match c.minor with
    | none => true
    | some minor =>
      match c.patch with
      | none => if c.major > 0 then v.minor ≥ minor else v.minor = minor
      | some patch =>
        if c.major > 0 then
          if v.minor ≠ minor then v.minor > minor
          else if v.patch ≠ patch then v.patch > patch
          else preCmp v.pre c.pre ≠ .lt
        else if minor > 0 then
          if v.minor ≠ minor then false
          else if v.patch ≠ patch then v.patch > patch
          else preCmp v.pre c.pre ≠ .lt
        else if v.minor ≠ minor ∨ v.patch ≠ patch then false
        else preCmp v.pre c.pre ≠ .lt

/-- The crate's `matches_impl`: dispatch on the comparator's operator. -/
def matchesImpl (c : Comparator) (v : Version) : Bool :=
  match c.op with
  | .exact => matchesExact c v
  | .wildcard => matchesExact c v
  | .greater => matchesGreater c v
  | .greaterEq => matchesExact c v || matchesGreater c v
  | .less => matchesLess c v
  | .lessEq => matchesExact c v || matchesLess c v
  | .tilde => matchesTilde c v
  | .caret => matchesCaret c v

/-- The crate's `pre_is_compatible`: a comparator admits pre-releases of a
version only when it pins exactly that version's triple and itself carries a
non-empty pre-release tag. -/
def preIsCompatible (c : Comparator) (v : Version) : Bool :=
  c.major = v.major && c.minor = some v.minor && c.patch = some v.patch
    && c.pre ≠ []

/-- The crate's `matches_req` (the public `VersionReq::matches`): every
comparator must match, and a pre-release version additionally needs some
comparator that is pre-release-compatible with it. -/
def matchesReq (r : VersionReq) (v : Version) : Bool :=
  r.comparators.all (fun c => matchesImpl c v)
    && (v.pre = [] || r.comparators.any (fun c => preIsCompatible c v))

/-- The `latest` / `any` aliasing of `binrep.rs::parse_version_req`.  The
fall-through arm calls the external `semver::VersionReq::parse`, which is
abstracted as the `fallback` parameter. -/
def parse_version_req (fallback : String → Except String VersionReq)
    (input : String) : Except String VersionReq :=
  if input = "latest" ∨ input = "any" then .ok starReq else fallback input

/-! ### Metadata documents (`metadata.rs`) -/

/-- Checksum methods (`metadata::ChecksumMethod`). -/
inductive ChecksumMethod
  | sha256
  | sha384
  | sha512
deriving DecidableEq

/-- Signature methods (`metadata::SignatureMethod`). -/
inductive SignatureMethod
  | hmacSha256
  | hmacSha384
  | hmacSha512
deriving DecidableEq

/-- One file entry of a manifest (`metadata::File`).  The checksum is kept as
its stored base64 string; the digest abstraction `DigestFn` below produces
such strings. -/
structure File where
  name : String
  checksum : String
  checksum_method : ChecksumMethod
  unix_mode : Option Nat
deriving DecidableEq

/-- Manifest signature block (`metadata::Signature`).  The stored signature
is a base64 string; we keep the decoded bytes (base64 round-tripping happens
at the serialization boundary, which is not modelled). -/
structure Signature where
  key_id : String
  signature : Bytes
  signature_method : SignatureMethod
deriving DecidableEq

/-- An artifact manifest (`metadata::Artifact`). -/
structure Artifact where
  version : Version
  signature : Signature
  files : List File
deriving DecidableEq

/-! ### Backend paths (`path.rs`) -/

namespace path

/-- `path::artifacts()`. -/
def artifacts : String := "/artifacts.sane"

namespace artifact

/-- `path::artifact::versions`. -/
def versions (artifact_name : String) : String :=
  artifact_name ++ "/versions.sane"

/-- `path::artifact::artifact` — the backend path of an ArtifactManifest,
exactly as built by the source: note the trailing component. -/
def artifact (artifact_name : String) (artifact_version : Version) : String :=
  artifact_name ++ "/" ++ versionToString artifact_version ++ "/versions.sane"

/-- `path::artifact::artifact_file` — the backend path of a file payload. -/
def artifact_file (artifact_name : String) (artifact_version : Version)
    (filename : String) : String :=
  artifact_name ++ "/" ++ versionToString artifact_version ++ "/" ++ filename

end artifact

end path

/-! ### Configuration and crypto (`config.rs`, `crypto/mod.rs`,
`crypto/hmac_signature.rs`)

SHA digests and HMAC tags are abstracted as function parameters: `DigestFn`
stands for `crypto::digest_file` followed by base64 encoding, and `HmacFn`
for `ring::hmac::sign` with a given method and key.  `ring::hmac::verify`
recomputes the tag and compares, which is how verification is modelled. -/

/-- Digest abstraction: checksum method and file content to base64 digest
string. -/
abbrev DigestFn := ChecksumMethod → Bytes → String

/-- HMAC abstraction: method, key material and message to tag bytes.  The
signed message is kept as the `String` the source builds (`to_sign`); the
source signs its UTF-8 bytes. -/
abbrev HmacFn := SignatureMethod → Bytes → String → Bytes

/-- Publish parameters (`config::PublishParameters`). -/
structure PublishParameters where
  signature_method : SignatureMethod
  checksum_method : ChecksumMethod
  hmac_signing_key : Option String
deriving DecidableEq

/-- Local configuration (`config::Config`), restricted to the fields the
repository operations read.  HMAC keys are kept as decoded byte strings. -/
structure Config where
  publish_parameters : Option PublishParameters
  hmac_keys : Option (List (String × Bytes))
deriving DecidableEq

/-- Unified error type covering `RepositoryError`, `BackendError`,
`ConfigValidationError`, the sane parse errors and `NoVersionMatching`. -/
inductive Err
  | artifactNameError
  | artifactVersionAlreadyExists
  | wrongArtifactSignature
  | wrongFileChecksum (name : String)
  | destinationFileAlreadyExists (name : String)
  | resourceNotFound
  | backendOther
  | noPublishParameters
  | noHmacKeysConfigured
  | hmacSigningKeyNotFound (key_id : String)
  | invalidHmacKey
  | noVersionMatching
deriving DecidableEq

instance {ε α : Type} [DecidableEq ε] [DecidableEq α] :
    DecidableEq (Except ε α) := fun x y =>
  match x, y with
  | .ok a, .ok b =>
    if h : a = b then .isTrue (congrArg Except.ok h)
    else .isFalse (fun hh => h (Except.ok.inj hh))
  | .ok _, .error _ => .isFalse (fun hh => Except.noConfusion hh)
  | .error _, .ok _ => .isFalse (fun hh => Except.noConfusion hh)
  | .error e, .error f =>
    if h : e = f then .isTrue (congrArg Except.error h)
    else .isFalse (fun hh => h (Except.error.inj hh))

/-- Association-list lookup for the `hmac_keys` map. -/
def lookupKey : List (String × Bytes) → String → Option Bytes
  | [], _ => none
  | (k, b) :: rest, key_id => if k = key_id then some b else lookupKey rest key_id

/-- Required HMAC key length per method (`HmacSignatureMethod::key_len`). -/
def keyLength : SignatureMethod → Nat
  | .hmacSha256 => 32
  | .hmacSha384 => 48
  | .hmacSha512 => 64

/-- `Config::get_key_bytes`: look the key id up in `hmac_keys` and check its
decoded length against the method's digest length. -/
def get_key_bytes (cfg : Config) (key_id : String) (m : SignatureMethod) :
    Except Err Bytes :=
  match cfg.hmac_keys with
  | none => .error .noHmacKeysConfigured
  | some keys =>
    match lookupKey keys key_id with
    | none => .error (.hmacSigningKeyNotFound key_id)
    | some key =>
      if key.length ≠ keyLength m then .error .invalidHmacKey
      else .ok key

/-- The string the source signs and verifies (`to_sign` in `push_artifact`
and `msg` in `Artifact::verify_signature`): the concatenation of each file's
name followed by its checksum, in manifest order. -/
def signedMessage (files : List File) : String :=
  files.foldl (fun acc f => acc ++ f.name ++ f.checksum) ""

/-- `Artifact::verify_signature`: build the message from the files, obtain
the verifier selected by the manifest's own `signature_method` and `key_id`
(`Config::get_verifier`, which for every HMAC method builds
`get_hmac_verifier` over `get_key_bytes`), and compare the recomputed tag
with the stored signature (`ring::hmac::verify`). -/
def verify_signature (hmacFn : HmacFn) (cfg : Config) (a : Artifact) :
    Except Err Bool :=
  match get_key_bytes cfg a.signature.key_id a.signature.signature_method with
  | .error e => .error e
  | .ok key =>
    .ok (decide (hmacFn a.signature.signature_method key (signedMessage a.files)
      = a.signature.signature))

/-- The resolved publish algorithms (`crypto::PublishAlgorithms` with the
signer flattened to its method, key id and key material). -/
structure PublishAlgorithm where
  checksum_method : ChecksumMethod
  signature_method : SignatureMethod
  key_id : String
  key : Bytes
deriving DecidableEq

/-- `Config::get_hmac_signer`. -/
def get_hmac_signer (cfg : Config) (p : PublishParameters) :
    Except Err PublishAlgorithm :=
  match p.hmac_signing_key with
  | none => .error .noHmacKeysConfigured
  | some key_id =>
    match get_key_bytes cfg key_id p.signature_method with
    | .error e => .error e
    | .ok key => .ok ⟨p.checksum_method, p.signature_method, key_id, key⟩

/-- `Config::get_publish_algorithm`: requires `publish_parameters` and
resolves the signer. -/
def get_publish_algorithm (cfg : Config) : Except Err PublishAlgorithm :=
  match cfg.publish_parameters with
  | none => .error .noPublishParameters
  | some p => get_hmac_signer cfg p

/-! ### The backend store

Documents are held structurally.  A cell is present (holding the parsed
document), absent (read fails with `BackendError::ResourceNotFound`), or
unreadable (read fails with `BackendError::Other`).  Writes
(`Backend::create_file`, `Backend::push_file`) are recorded in a trace of
events carrying the backend path the source computes via `path.rs`. -/

/-- One backend storage cell. -/
inductive Cell (α : Type)
  | present (a : α)
  | absent
  | unreadable
deriving DecidableEq

/-- Read a cell (`Backend::read_file` followed by `sane::from_str`). -/
def readCell : Cell α → Except Err α
  | .present a => .ok a
  | .absent => .error .resourceNotFound
  | .unreadable => .error .backendOther

/-- The backend state: the artifact index, the per-artifact version lists,
the per-(name, version) manifests and the file payload blobs. -/
structure Store where
  index : Cell (List String)
  versions : String → Cell (List Version)
  manifests : String → Version → Cell Artifact
  blobs : String → Version → String → Cell Bytes

/-- Write the artifact index (`Repository::write_artifacts`). -/
def Store.setIndex (st : Store) (arts : List String) : Store :=
  { st with index := .present arts }

/-- Write a version list (`Repository::write_artifact_versions`). -/
def Store.setVersions (st : Store) (n : String) (vs : List Version) : Store :=
  { st with versions := fun m => if m = n then .present vs else st.versions m }

/-- Write a manifest (`Repository::write_artifact`). -/
def Store.setManifest (st : Store) (n : String) (v : Version) (a : Artifact) :
    Store :=
  { st with manifests := fun m w =>
      if m = n ∧ w = v then .present a else st.manifests m w }

/-- Upload a payload (`Backend::push_file`). -/
def Store.setBlob (st : Store) (n : String) (v : Version) (f : String)
    (b : Bytes) : Store :=
  { st with blobs := fun m w g =>
      if m = n ∧ w = v ∧ g = f then .present b else st.blobs m w g }

/-- A backend write event, in the order the source performs the operations. -/
inductive Event
  | writeIndex (artifacts : List String)
  | writeVersions (name : String) (versions : List Version)
  | writeManifest (backend_path : String) (name : String) (version : Version)
      (artifact : Artifact)
  | uploadFile (backend_path : String)
deriving DecidableEq

/-! ### Repository operations (`repository.rs`) -/

/-- `validate_artifact_name`: non-empty, ASCII alphanumeric or `-`, `_`, `.`. -/
def validate_artifact_name (name : String) : Except Err Unit :=
  if name.length = 0 then .error .artifactNameError
  else if name.data.all (fun c => c.isAlphanum || c = '-' || c = '_' || c = '.') then
    .ok ()
  else .error .artifactNameError

/-- `Repository::list_artifacts`: read and parse `/artifacts.sane`. -/
def list_artifacts (st : Store) : Except Err (List String) :=
  readCell st.index

/-- `Repository::list_artifact_versions`: validate the name, read and parse
`<name>/versions.sane`. -/
def list_artifact_versions (st : Store) (n : String) :
    Except Err (List Version) :=
  match validate_artifact_name n with
  | .error e => .error e
  | .ok _ => readCell (st.versions n)

/-- `Repository::init`: return the artifact index, writing a fresh empty one
when reading it fails for any reason. -/
def init (st : Store) : List String × Store × List Event :=
  match list_artifacts st with
  | .ok arts => (arts, st, [])
  | .error _ => ([], st.setIndex [], [.writeIndex []])

/-- `Repository::init_artifact`: return the version list; when reading it
fails with the backend's not-found error (discovered by downcasting), run
`init`, write an empty version list, push the name onto the index and write
the index; abort on any other error. -/
def init_artifact (st : Store) (n : String) :
    Except Err (List Version) × Store × List Event :=
  match validate_artifact_name n with
  | .error e => (.error e, st, [])
  | .ok _ =>
    match list_artifact_versions st n with
    | .ok vs => (.ok vs, st, [])
    | .error .resourceNotFound =>
      let (arts, st₁, tr₁) := init st
      let st₂ := st₁.setVersions n []
      let arts₂ := arts ++ [n]
      let st₃ := st₂.setIndex arts₂
      (.ok [], st₃, tr₁ ++ [.writeVersions n [], .writeIndex arts₂])
    | .error e => (.error e, st, [])

/-- `Repository::get_artifact`: validate the name, read and parse the
manifest, verify its signature, reject with `WrongArtifactSignature` when
verification returns false. -/
def get_artifact (hmacFn : HmacFn) (cfg : Config) (st : Store) (n : String)
    (v : Version) : Except Err Artifact :=
  match validate_artifact_name n with
  | .error e => .error e
  | .ok _ =>
    match readCell (st.manifests n v) with
    | .error e => .error e
    | .ok a =>
      match verify_signature hmacFn cfg a with
      | .error e => .error e
      | .ok ok => if ok then .ok a else .error .wrongArtifactSignature

/-- A local file handed to `push_artifact`: its base name (the last path
segment), its content, and its unix permission bits. -/
structure LocalFile where
  name : String
  content : Bytes
  mode : Nat
deriving DecidableEq

/-- The manifest `push_artifact` constructs: digests and permission bits per
file, the signed string per the concatenation rule, and the signature block
from the configured signer. -/
def makeArtifact (digestFn : DigestFn) (hmacFn : HmacFn)
    (alg : PublishAlgorithm) (v : Version) (files : List LocalFile) : Artifact :=
  let entries : List File := files.map (fun f =>
    { name := f.name
      checksum := digestFn alg.checksum_method f.content
      checksum_method := alg.checksum_method
      unix_mode := some (f.mode &&& 0o777) })
  { version := v
    files := entries
    signature :=
      { key_id := alg.key_id
        signature_method := alg.signature_method
        signature := hmacFn alg.signature_method alg.key (signedMessage entries) } }

/-- `Repository::push_artifact`: initialize the artifact, reject an existing
version, resolve the publish algorithms, build the manifest, upload every
payload, write the manifest, append the version and rewrite the version
list. -/
def push_artifact (digestFn : DigestFn) (hmacFn : HmacFn) (cfg : Config)
    (st : Store) (n : String) (v : Version) (files : List LocalFile) :
    Except Err Artifact × Store × List Event :=
  match init_artifact st n with
  | (.error e, st₁, tr₁) => (.error e, st₁, tr₁)
  | (.ok versions, st₁, tr₁) =>
    if v ∈ versions then (.error .artifactVersionAlreadyExists, st₁, tr₁)
    else match get_publish_algorithm cfg with
      | .error e => (.error e, st₁, tr₁)
      | .ok alg =>
        let artifact := makeArtifact digestFn hmacFn alg v files
        let st₂ := files.foldl (fun s f => s.setBlob n v f.name f.content) st₁
        let tr₂ := files.map (fun f =>
          Event.uploadFile (path.artifact.artifact_file n v f.name))
        let st₃ := st₂.setManifest n v artifact
        let st₄ := st₃.setVersions n (versions ++ [v])
        (.ok artifact, st₄,
          tr₁ ++ tr₂
            ++ [.writeManifest (path.artifact.artifact n v) n v artifact,
                .writeVersions n (versions ++ [v])])

/-! ### Pull (`repository.rs`) and the local filesystem

A directory is a finite map from file names to contents.  `pull_artifact`
downloads into a fresh temporary directory, verifies checksums there, then
checks collisions against the destination and moves the files into place. -/

/-- A directory's contents. -/
def Fs : Type := String → Option Bytes

/-- The empty (fresh temporary) directory. -/
def emptyFs : Fs := fun _ => none

/-- Create or overwrite a file. -/
def Fs.insert (fs : Fs) (k : String) (b : Bytes) : Fs :=
  fun q => if q = k then some b else fs q

/-- Remove a file. -/
def Fs.erase (fs : Fs) (k : String) : Fs :=
  fun q => if q = k then none else fs q

/-- `Repository::copy_to_tmpdir`: download one payload into the temporary
directory (restoring `unix_mode` is a permissions-only effect, not modelled
on contents), recompute its digest and reject with `WrongFileChecksum` on
mismatch. -/
def copy_to_tmpdir (digestFn : DigestFn) (st : Store) (n : String)
    (v : Version) (f : File) (tmp : Fs) : Except Err Fs :=
  match st.blobs n v f.name with
  | .present b =>
    let tmp₁ := tmp.insert f.name b
    if digestFn f.checksum_method b = f.checksum then .ok tmp₁
    else .error (.wrongFileChecksum f.name)
  | .absent => .error .resourceNotFound
  | .unreadable => .error .backendOther

/-- The download loop of `pull_artifact` over `copy_to_tmpdir`. -/
def downloadAll (digestFn : DigestFn) (st : Store) (n : String) (v : Version) :
    List File → Fs → Except Err Fs
  | [], tmp => .ok tmp
  | f :: rest, tmp =>
    match copy_to_tmpdir digestFn st n v f tmp with
    | .error e => .error e
    | .ok tmp₁ => downloadAll digestFn st n v rest tmp₁

/-- The collision check of `pull_artifact` (`try_fold` over the manifest
files): an existing destination entry fails with
`DestinationFileAlreadyExists` unless `overwrite` is set, in which case it is
deleted. -/
def checkPresence (files : List File) (dest : Fs) (overwrite : Bool) :
    Except Err Fs :=
  match files with
  | [] => .ok dest
  | f :: rest =>
    match dest f.name with
    | some _ =>
      if overwrite then checkPresence rest (dest.erase f.name) overwrite
      else .error (.destinationFileAlreadyExists f.name)
    | none => checkPresence rest dest overwrite

/-- The move loop of `pull_artifact` and `sync` (`file_utils::mv` of each
temporary file to its destination).  After a successful download every
manifest file is present in the temporary directory; a missing source is a
no-op here and is proved unreachable. -/
def moveAll (tmp : Fs) (files : List File) (dest : Fs) : Fs :=
  files.foldl (fun d f =>
    match tmp f.name with
    | some b => d.insert f.name b
    | none => d) dest

/-- `Repository::pull_artifact`: get the verified manifest, download all
payloads into a fresh temporary directory (checksums verified there), run
the collision check against the destination, then move the files into
place.  The pair returned is the operation's result together with the
destination directory's final contents; the temporary directory is
discarded. -/
def pull_artifact (digestFn : DigestFn) (hmacFn : HmacFn) (cfg : Config)
    (st : Store) (n : String) (v : Version) (dest : Fs) (overwrite : Bool) :
    Except Err Artifact × Fs :=
  match get_artifact hmacFn cfg st n v with
  | .error e => (.error e, dest)
  | .ok a =>
    match downloadAll digestFn st n v a.files emptyFs with
    | .error e => (.error e, dest)
    | .ok tmp =>
      match checkPresence a.files dest overwrite with
      | .error e => (.error e, dest)
      | .ok dest₁ => (.ok a, moveAll tmp a.files dest₁)

/-! ### Sync engine (`binrep.rs`) -/

/-- `sync::SyncMetadata`. -/
structure SyncMetadata where
  last_updated : String
  artifact : Artifact
deriving DecidableEq

/-- `binrep::SyncStatus`. -/
inductive SyncStatus
  | upToDate
  | updated
deriving DecidableEq

/-- `binrep::SyncResult`. -/
structure SyncResult where
  artifact : Artifact
  status : SyncStatus
deriving DecidableEq

/-- A destination directory: its files plus the per-artifact SyncMetadata
documents (`.<name>_sync.sane`; the lock file `.<name>.binrep-sync.lock` is
created and removed again within one call and is not part of the contents). -/
structure DestDir where
  files : Fs
  meta : String → Option SyncMetadata

/-- `Binrep::last_version`: the filtered version list
(`list_artifact_versions` with the requirement applied), sorted, last
element. -/
def last_version (st : Store) (n : String) (req : VersionReq) :
    Except Err (Option Version) :=
  match list_artifact_versions st n with
  | .error e => .error e
  | .ok vs =>
    .ok (List.insertionSort versionLe
      (vs.filter (fun v => matchesReq req v))).getLast?

/-- The deletion loop of `sync`'s update branch: remove the files listed in
the previous SyncMetadata (if any) from the destination, ignoring
missing-file errors. -/
def removeOldFiles (metaOpt : Option SyncMetadata) (fs : Fs) : Fs :=
  match metaOpt with
  | none => fs
  | some m => m.artifact.files.foldl (fun d f => d.erase f.name) fs

/-- The update branch of `Binrep::sync`: pull the target into a fresh
temporary directory inside the destination (with `overwrite = true`), delete
the previously synced files, move the pulled files into place and write the
new SyncMetadata. -/
def syncUpdate (digestFn : DigestFn) (hmacFn : HmacFn) (cfg : Config)
    (st : Store) (n : String) (latest : Version)
    (metaOpt : Option SyncMetadata) (dest : DestDir) (now : String) :
    Except Err SyncResult × DestDir :=
  match pull_artifact digestFn hmacFn cfg st n latest emptyFs true with
  | (.error e, _) => (.error e, dest)
  | (.ok a, tmp) =>
    let files₁ := removeOldFiles metaOpt dest.files
    let files₂ := moveAll tmp a.files files₁
    let newMeta : SyncMetadata := ⟨now, a⟩
    (.ok ⟨a, .updated⟩,
      { files := files₂
        meta := fun q => if q = n then some newMeta else dest.meta q })

/-- `Binrep::sync`: compute the greatest matching version (failing with
`NoVersionMatching` when none matches), read the SyncMetadata, return
`UpToDate` with the stored manifest when its version equals the target, and
otherwise run the update branch.  `now` stands for `Utc::now().to_rfc3339()`. -/
def sync (digestFn : DigestFn) (hmacFn : HmacFn) (cfg : Config) (st : Store)
    (n : String) (req : VersionReq) (dest : DestDir) (now : String) :
    Except Err SyncResult × DestDir :=
  match last_version st n req with
  | .error e => (.error e, dest)
  | .ok none => (.error .noVersionMatching, dest)
  | .ok (some latest) =>
    match dest.meta n with
    | some m =>
      if m.artifact.version = latest then (.ok ⟨m.artifact, .upToDate⟩, dest)
      else syncUpdate digestFn hmacFn cfg st n latest (some m) dest now
    | none => syncUpdate digestFn hmacFn cfg st n latest none dest now

/-! ### Concrete fixtures

A small concrete repository used to evaluate the operations at explicit
inputs: one artifact `a` at version `1.0.0` with a single payload `f`. -/

/-- A 32-byte HMAC-SHA256 key. -/
def exKey : Bytes := List.replicate 32 0

/-- A reader-and-publisher configuration with one key `k`. -/
def exCfg : Config :=
  { publish_parameters := some ⟨.hmacSha256, .sha256, some "k"⟩
    hmac_keys := some [("k", exKey)] }

/-- A concrete stand-in for the HMAC primitive: every tag is `[7]`. -/
def exHmac : HmacFn := fun _ _ _ => [7]

/-- A concrete stand-in for the digest primitive: the rendered length. -/
def exDigest : DigestFn := fun _ b => toString b.length

/-- Version `1.0.0`. -/
def exVersion : Version := ⟨1, 0, 0, [], []⟩

/-- Version `2.0.0`. -/
def exVersion2 : Version := ⟨2, 0, 0, [], []⟩

/-- The payload bytes of `f` (digest `"2"` under `exDigest`). -/
def exBlob : Bytes := [5, 6]

/-- The manifest entry of `f`. -/
def exFile : File := ⟨"f", "2", .sha256, some 0o755⟩

/-- The manifest of `a 1.0.0`, signed with tag `[7]` (which `exHmac`
reproduces on any message). -/
def exArtifact : Artifact := ⟨exVersion, ⟨"k", [7], .hmacSha256⟩, [exFile]⟩

/-- A consistent store holding artifact `a` at `1.0.0`. -/
def exStore : Store :=
  { index := .present ["a"]
    versions := fun m => if m = "a" then .present [exVersion] else .absent
    manifests := fun m w =>
      if m = "a" ∧ w = exVersion then .present exArtifact else .absent
    blobs := fun m w g =>
      if m = "a" ∧ w = exVersion ∧ g = "f" then .present exBlob else .absent }

/-- `exStore` with the payload of `f` tampered (digest `"3"` ≠ `"2"`). -/
def tamperStore : Store :=
  { exStore with
    blobs := fun m w g =>
      if m = "a" ∧ w = exVersion ∧ g = "f" then .present [5, 6, 7] else .absent }

/-- A store whose index already names `a` while `a/versions.sane` is absent. -/
def dupStore : Store :=
  { index := .present ["a"]
    versions := fun _ => .absent
    manifests := fun _ _ => .absent
    blobs := fun _ _ _ => .absent }

/-- A local file to push. -/
def exLocal : LocalFile := ⟨"f", exBlob, 0o755⟩

/-- The manifest a push of `a 2.0.0` with `exLocal` constructs. -/
def exArtifact2 : Artifact :=
  ⟨exVersion2, ⟨"k", [7], .hmacSha256⟩, [⟨"f", "2", .sha256, some 493⟩]⟩

/-- A store whose version-list read fails with a non-not-found error. -/
def unreadStore : Store :=
  { index := .present ["a"]
    versions := fun _ => .unreadable
    manifests := fun _ _ => .absent
    blobs := fun _ _ _ => .absent }

/-- An empty destination directory. -/
def exDest : DestDir := ⟨emptyFs, fun _ => none⟩

/-- Sync metadata recording `a 1.0.0` as materialized. -/
def exMeta : SyncMetadata := ⟨"t0", exArtifact⟩

/-- A destination directory that claims `a 1.0.0` is materialized but holds
none of its files (deleted or tampered destination). -/
def staleDest : DestDir := ⟨emptyFs, fun q => if q = "a" then some exMeta else none⟩

/-- Sync metadata of an older materialized version `0.9.0` with a file `g`
that `a 1.0.0` no longer ships. -/
def oldMeta : SyncMetadata :=
  ⟨"t-1", ⟨⟨0, 9, 0, [], []⟩, ⟨"k", [7], .hmacSha256⟩, [⟨"g", "1", .sha256, none⟩]⟩⟩

/-- A destination directory materialized at `0.9.0` (holding `g`). -/
def oldDest : DestDir :=
  ⟨fun q => if q = "g" then some [9] else none,
   fun q => if q = "a" then some oldMeta else none⟩

/-! ## Lawfulness of the version comparator -/

theorem cmpNat_lt_iff {a b : Nat} : cmpNat a b = .lt ↔ a < b := by
  unfold cmpNat
  split_ifs with h₁ h₂ <;> simp <;> omega

theorem cmpNat_eq_iff {a b : Nat} : cmpNat a b = .eq ↔ a = b := by
  unfold cmpNat
  split_ifs with h₁ h₂ <;> simp <;> omega

theorem cmpNat_gt_iff {a b : Nat} : cmpNat a b = .gt ↔ b < a := by
  unfold cmpNat
  split_ifs with h₁ h₂ <;> simp <;> omega

theorem cmpNat_lawful : IsLawfulCmp cmpNat := by
  constructor
  · intro a b
    rcases Nat.lt_trichotomy a b with h | h | h
    · rw [cmpNat_lt_iff.2 h, cmpNat_gt_iff.2 h]; rfl
    · rw [cmpNat_eq_iff.2 h, cmpNat_eq_iff.2 h.symm]; rfl
    · rw [cmpNat_gt_iff.2 h, cmpNat_lt_iff.2 h]; rfl
  · intro a b d h₁ h₂
    rw [cmpNat_lt_iff] at h₁ h₂ ⊢; omega
  · intro a b d h₁ h₂
    rw [cmpNat_eq_iff] at h₁ h₂ ⊢; omega
  · intro a b d h₁ h₂
    rw [cmpNat_eq_iff] at h₁; rw [cmpNat_lt_iff] at h₂ ⊢; omega
  · intro a b d h₁ h₂
    rw [cmpNat_lt_iff] at h₁ ⊢; rw [cmpNat_eq_iff] at h₂; omega

theorem lexCmp_lt_iff {c₁ c₂ : α → α → Ordering} {a b : α} :
    lexCmp c₁ c₂ a b = .lt ↔ c₁ a b = .lt ∨ (c₁ a b = .eq ∧ c₂ a b = .lt) := by
  unfold lexCmp
  cases c₁ a b <;> simp

theorem lexCmp_eq_iff {c₁ c₂ : α → α → Ordering} {a b : α} :
    lexCmp c₁ c₂ a b = .eq ↔ c₁ a b = .eq ∧ c₂ a b = .eq := by
  unfold lexCmp
  cases c₁ a b <;> simp

theorem keyCmp_lawful (f : α → β) {c : β → β → Ordering} (h : IsLawfulCmp c) :
    IsLawfulCmp (keyCmp f c) := by
  constructor
  · intro a b; exact h.symm (f a) (f b)
  · intro a b d h₁ h₂; exact h.lt_trans h₁ h₂
  · intro a b d h₁ h₂; exact h.eq_trans h₁ h₂
  · intro a b d h₁ h₂; exact h.eq_lt h₁ h₂
  · intro a b d h₁ h₂; exact h.lt_eq h₁ h₂

theorem lexCmp_lawful {c₁ c₂ : α → α → Ordering} (h₁ : IsLawfulCmp c₁)
    (h₂ : IsLawfulCmp c₂) : IsLawfulCmp (lexCmp c₁ c₂) := by
  constructor
  · intro a b
    unfold lexCmp
    rw [h₁.symm a b]
    cases c₁ a b
    · rfl
    · simpa [Ordering.swap] using h₂.symm a b
    · rfl
  · intro a b d hab hbd
    rw [lexCmp_lt_iff] at hab hbd ⊢
    rcases hab with hab | ⟨hab, hab'⟩ <;> rcases hbd with hbd | ⟨hbd, hbd'⟩
    · exact Or.inl (h₁.lt_trans hab hbd)
    · exact Or.inl (h₁.lt_eq hab hbd)
    · exact Or.inl (h₁.eq_lt hab hbd)
    · exact Or.inr ⟨h₁.eq_trans hab hbd, h₂.lt_trans hab' hbd'⟩
  · intro a b d hab hbd
    rw [lexCmp_eq_iff] at hab hbd ⊢
    exact ⟨h₁.eq_trans hab.1 hbd.1, h₂.eq_trans hab.2 hbd.2⟩
  · intro a b d hab hbd
    rw [lexCmp_eq_iff] at hab
    rw [lexCmp_lt_iff] at hbd ⊢
    rcases hbd with hbd | ⟨hbd, hbd'⟩
    · exact Or.inl (h₁.eq_lt hab.1 hbd)
    · exact Or.inr ⟨h₁.eq_trans hab.1 hbd, h₂.eq_lt hab.2 hbd'⟩
  · intro a b d hab hbd
    rw [lexCmp_eq_iff] at hbd
    rw [lexCmp_lt_iff] at hab ⊢
    rcases hab with hab | ⟨hab, hab'⟩
    · exact Or.inl (h₁.lt_eq hab hbd.1)
    · exact Or.inr ⟨h₁.eq_trans hab hbd.1, h₂.lt_eq hab' hbd.2⟩

theorem cmpList_nil_nil {c : α → α → Ordering} : cmpList c [] [] = .eq := rfl

theorem cmpList_cons_cons {c : α → α → Ordering} {x y : α} {xs ys : List α} :
    cmpList c (x :: xs) (y :: ys)
      = match c x y with
        | .eq => cmpList c xs ys
        | o => o := rfl

theorem cmpList_lawful {c : α → α → Ordering} (hc : IsLawfulCmp c) :
    IsLawfulCmp (cmpList c) := by
  constructor
  · intro a
    induction a with
    | nil => intro b; cases b <;> rfl
    | cons x xs ih =>
      intro b
      cases b with
      | nil => rfl
      | cons y ys =>
        rw [cmpList_cons_cons, cmpList_cons_cons, hc.symm x y]
        cases c x y
        · rfl
        · simpa [Ordering.swap] using ih ys
        · rfl
  · intro a b d hab hbd
    induction a generalizing b d with
    | nil =>
      cases b with
      | nil => simp [cmpList] at hab
      | cons y ys =>
        cases d with
        | nil => simp [cmpList] at hbd
        | cons z zs => rfl
    | cons x xs ih =>
      cases b with
      | nil => simp [cmpList] at hab
      | cons y ys =>
        cases d with
        | nil => simp [cmpList] at hbd
        | cons z zs =>
          rw [cmpList_cons_cons] at hab hbd ⊢
          cases hxy : c x y <;> rw [hxy] at hab
          · cases hyz : c y z <;> rw [hyz] at hbd
            · rw [hc.lt_trans hxy hyz]
            · rw [hc.lt_eq hxy hyz]
            · exact absurd hbd (by simp)
          · cases hyz : c y z <;> rw [hyz] at hbd
            · rw [hc.eq_lt hxy hyz]
            · rw [hc.eq_trans hxy hyz]
              exact ih hab hbd
            · exact absurd hbd (by simp)
          · exact absurd hab (by simp)
  · intro a b d hab hbd
    induction a generalizing b d with
    | nil =>
      cases b with
      | nil =>
        cases d with
        | nil => rfl
        | cons z zs => simp [cmpList] at hbd
      | cons y ys => simp [cmpList] at hab
    | cons x xs ih =>
      cases b with
      | nil => simp [cmpList] at hab
      | cons y ys =>
        cases d with
        | nil => simp [cmpList] at hbd
        | cons z zs =>
          rw [cmpList_cons_cons] at hab hbd ⊢
          cases hxy : c x y <;> rw [hxy] at hab
          · exact absurd hab (by simp)
          · cases hyz : c y z <;> rw [hyz] at hbd
            · exact absurd hbd (by simp)
            · rw [hc.eq_trans hxy hyz]
              exact ih hab hbd
            · exact absurd hbd (by simp)
          · exact absurd hab (by simp)
  · intro a b d hab hbd
    induction a generalizing b d with
    | nil =>
      cases b with
      | nil =>
        cases d with
        | nil => simp [cmpList] at hbd
        | cons z zs => rfl
      | cons y ys => simp [cmpList] at hab
    | cons x xs ih =>
      cases b with
      | nil => simp [cmpList] at hab
      | cons y ys =>
        cases d with
        | nil => simp [cmpList] at hbd
        | cons z zs =>
          rw [cmpList_cons_cons] at hab hbd ⊢
          cases hxy : c x y <;> rw [hxy] at hab
          · exact absurd hab (by simp)
          · cases hyz : c y z <;> rw [hyz] at hbd
            · rw [hc.eq_lt hxy hyz]
            · rw [hc.eq_trans hxy hyz]
              exact ih hab hbd
            · exact absurd hbd (by simp)
          · exact absurd hab (by simp)
  · intro a b d hab hbd
    induction a generalizing b d with
    | nil =>
      cases b with
      | nil => simp [cmpList] at hab
      | cons y ys =>
        cases d with
        | nil => simp [cmpList] at hbd
        | cons z zs => rfl
    | cons x xs ih =>
      cases b with
      | nil => simp [cmpList] at hab
      | cons y ys =>
        cases d with
        | nil => simp [cmpList] at hbd
        | cons z zs =>
          rw [cmpList_cons_cons] at hab hbd ⊢
          cases hxy : c x y <;> rw [hxy] at hab
          · cases hyz : c y z <;> rw [hyz] at hbd
            · exact absurd hbd (by simp)
            · rw [hc.lt_eq hxy hyz]
            · exact absurd hbd (by simp)
          · cases hyz : c y z <;> rw [hyz] at hbd
            · exact absurd hbd (by simp)
            · rw [hc.eq_trans hxy hyz]
              exact ih hab hbd
            · exact absurd hbd (by simp)
          · exact absurd hab (by simp)

theorem preIdCmp_lawful : IsLawfulCmp preIdCmp := by
  have hn := cmpNat_lawful
  have hl := cmpList_lawful cmpNat_lawful
  constructor
  · intro a b
    cases a <;> cases b <;>
      first
        | rfl
        | exact hn.symm _ _
        | exact hl.symm _ _
  · intro a b d hab hbd
    cases a <;> cases b <;> cases d <;>
      first
        | rfl
        | exact hn.lt_trans hab hbd
        | exact hl.lt_trans hab hbd
        | exact Ordering.noConfusion hab
        | exact Ordering.noConfusion hbd
  · intro a b d hab hbd
    cases a <;> cases b <;> cases d <;>
      first
        | rfl
        | exact hn.eq_trans hab hbd
        | exact hl.eq_trans hab hbd
        | exact Ordering.noConfusion hab
        | exact Ordering.noConfusion hbd
  · intro a b d hab hbd
    cases a <;> cases b <;> cases d <;>
      first
        | rfl
        | exact hn.eq_lt hab hbd
        | exact hl.eq_lt hab hbd
        | exact Ordering.noConfusion hab
        | exact Ordering.noConfusion hbd
  · intro a b d hab hbd
    cases a <;> cases b <;> cases d <;>
      first
        | rfl
        | exact hn.lt_eq hab hbd
        | exact hl.lt_eq hab hbd
        | exact Ordering.noConfusion hab
        | exact Ordering.noConfusion hbd

theorem preCmp_lawful : IsLawfulCmp preCmp := by
  have hlp := cmpList_lawful preIdCmp_lawful
  constructor
  · intro a b
    cases a <;> cases b <;>
      first
        | rfl
        | exact hlp.symm _ _
  · intro a b d hab hbd
    cases a <;> cases b <;> cases d <;>
      first
        | rfl
        | exact hlp.lt_trans hab hbd
        | exact Ordering.noConfusion hab
        | exact Ordering.noConfusion hbd
  · intro a b d hab hbd
    cases a <;> cases b <;> cases d <;>
      first
        | rfl
        | exact hlp.eq_trans hab hbd
        | exact Ordering.noConfusion hab
        | exact Ordering.noConfusion hbd
  · intro a b d hab hbd
    cases a <;> cases b <;> cases d <;>
      first
        | rfl
        | exact hlp.eq_lt hab hbd
        | exact Ordering.noConfusion hab
        | exact Ordering.noConfusion hbd
  · intro a b d hab hbd
    cases a <;> cases b <;> cases d <;>
      first
        | rfl
        | exact hlp.lt_eq hab hbd
        | exact Ordering.noConfusion hab
        | exact Ordering.noConfusion hbd

theorem buildIdCmp_lawful : IsLawfulCmp buildIdCmp := by
  have hd := lexCmp_lawful (keyCmp_lawful List.length cmpNat_lawful)
    (cmpList_lawful cmpNat_lawful)
  have hl := cmpList_lawful cmpNat_lawful
  constructor
  · intro a b
    cases a <;> cases b <;>
      first
        | rfl
        | exact hd.symm _ _
        | exact hl.symm _ _
  · intro a b d hab hbd
    cases a <;> cases b <;> cases d <;>
      first
        | rfl
        | exact hd.lt_trans hab hbd
        | exact hl.lt_trans hab hbd
        | exact Ordering.noConfusion hab
        | exact Ordering.noConfusion hbd
  · intro a b d hab hbd
    cases a <;> cases b <;> cases d <;>
      first
        | rfl
        | exact hd.eq_trans hab hbd
        | exact hl.eq_trans hab hbd
        | exact Ordering.noConfusion hab
        | exact Ordering.noConfusion hbd
  · intro a b d hab hbd
    cases a <;> cases b <;> cases d <;>
      first
        | rfl
        | exact hd.eq_lt hab hbd
        | exact hl.eq_lt hab hbd
        | exact Ordering.noConfusion hab
        | exact Ordering.noConfusion hbd
  · intro a b d hab hbd
    cases a <;> cases b <;> cases d <;>
      first
        | rfl
        | exact hd.lt_eq hab hbd
        | exact hl.lt_eq hab hbd
        | exact Ordering.noConfusion hab
        | exact Ordering.noConfusion hbd

theorem buildCmp_lawful : IsLawfulCmp buildCmp :=
  cmpList_lawful buildIdCmp_lawful

theorem versionCmp_lawful : IsLawfulCmp versionCmp :=
  lexCmp_lawful (keyCmp_lawful Version.major cmpNat_lawful)
    (lexCmp_lawful (keyCmp_lawful Version.minor cmpNat_lawful)
      (lexCmp_lawful (keyCmp_lawful Version.patch cmpNat_lawful)
        (lexCmp_lawful (keyCmp_lawful Version.pre preCmp_lawful)
          (keyCmp_lawful Version.build buildCmp_lawful))))

theorem IsLawfulCmp.cmp_refl {c : α → α → Ordering} (h : IsLawfulCmp c)
    (a : α) : c a a = .eq := by
  have hs := h.symm a a
  cases hc : c a a
  · rw [hc] at hs; exact absurd hs (by decide)
  · rfl
  · rw [hc] at hs; exact absurd hs (by decide)

theorem IsLawfulCmp.le_total {c : α → α → Ordering} (h : IsLawfulCmp c)
    (a b : α) : c a b ≠ .gt ∨ c b a ≠ .gt := by
  cases hc : c a b
  · left; simp [hc]
  · left; simp [hc]
  · right
    have hs := h.symm a b
    rw [hc] at hs
    rw [hs]
    decide

theorem IsLawfulCmp.le_trans_ne {c : α → α → Ordering} (h : IsLawfulCmp c)
    {a b d : α} (hab : c a b ≠ .gt) (hbd : c b d ≠ .gt) : c a d ≠ .gt := by
  cases h₁ : c a b
  · cases h₂ : c b d
    · rw [h.lt_trans h₁ h₂]; decide
    · rw [h.lt_eq h₁ h₂]; decide
    · exact absurd h₂ hbd
  · cases h₂ : c b d
    · rw [h.eq_lt h₁ h₂]; decide
    · rw [h.eq_trans h₁ h₂]; decide
    · exact absurd h₂ hbd
  · exact absurd h₁ hab

theorem versionLe_refl (a : Version) : versionLe a a := by
  unfold versionLe
  rw [versionCmp_lawful.cmp_refl]
  decide

theorem versionLe_total (a b : Version) : versionLe a b ∨ versionLe b a :=
  versionCmp_lawful.le_total a b

theorem versionLe_trans {a b d : Version} (hab : versionLe a b)
    (hbd : versionLe b d) : versionLe a d :=
  versionCmp_lawful.le_trans_ne hab hbd

/-! ## Lastness of the sort used by `last_version` -/

theorem sorted_getLast?_max {r : α → α → Prop} {m : α} :
    ∀ {l : List α}, l.Sorted r → l.getLast? = some m → ∀ x ∈ l, x = m ∨ r x m := by
  intro l
  induction l with
  | nil => intro _ h; simp at h
  | cons a t ih =>
    intro hs hl x hx
    cases t with
    | nil =>
      have ham : a = m := by simpa using hl
      rcases List.mem_singleton.1 hx with rfl
      exact Or.inl ham
    | cons b t₂ =>
      rw [List.getLast?_cons_cons] at hl
      rcases List.mem_cons.1 hx with rfl | hx₂
      · right
        have hm₂ : m ∈ b :: t₂ := by
          obtain ⟨hne, heq⟩ := List.mem_getLast?_eq_getLast
            (show m ∈ (b :: t₂).getLast? from by rw [Option.mem_def]; exact hl)
          rw [heq]; exact List.getLast_mem hne
        exact List.rel_of_sorted_cons hs m hm₂
      · exact ih hs.of_cons hl x hx₂

theorem insertionSort_versionLe_getLast?_max {l : List Version} {m : Version}
    (h : (List.insertionSort versionLe l).getLast? = some m) :
    m ∈ l ∧ ∀ x ∈ l, versionLe x m := by
  haveI : IsTotal Version versionLe := ⟨versionLe_total⟩
  haveI : IsTrans Version versionLe := ⟨fun a b d hab hbd => versionLe_trans hab hbd⟩
  have hs := List.sorted_insertionSort versionLe l
  have hp := List.perm_insertionSort versionLe l
  have hmem : m ∈ List.insertionSort versionLe l := by
    obtain ⟨hne, heq⟩ := List.mem_getLast?_eq_getLast
      (show m ∈ (List.insertionSort versionLe l).getLast? from by
        rw [Option.mem_def]; exact h)
    rw [heq]; exact List.getLast_mem hne
  refine ⟨hp.subset hmem, ?_⟩
  intro x hx
  have hx' : x ∈ List.insertionSort versionLe l := hp.symm.subset hx
  rcases sorted_getLast?_max hs h x hx' with rfl | hle
  · exact versionLe_refl x
  · exact hle


/-! ## Inversion lemmas for the repository operations -/

theorem readCell_ok {α : Type} {c : Cell α} {a : α} (h : readCell c = .ok a) :
    c = .present a := by
  cases c with
  | present x => simp [readCell] at h; rw [h]
  | absent => simp [readCell] at h
  | unreadable => simp [readCell] at h

theorem readCell_notFound {α : Type} {c : Cell α}
    (h : readCell c = .error .resourceNotFound) : c = .absent := by
  cases c with
  | present x => simp [readCell] at h
  | absent => rfl
  | unreadable => simp [readCell] at h

theorem verify_signature_ok_true {hmacFn : HmacFn} {cfg : Config} {a : Artifact}
    (h : verify_signature hmacFn cfg a = .ok true) :
    ∃ key, get_key_bytes cfg a.signature.key_id a.signature.signature_method = .ok key ∧
      hmacFn a.signature.signature_method key (signedMessage a.files)
        = a.signature.signature := by
  unfold verify_signature at h
  cases hk : get_key_bytes cfg a.signature.key_id a.signature.signature_method <;>
    rw [hk] at h
  · exact Except.noConfusion h
  · refine ⟨_, rfl, ?_⟩
    have hd := Except.ok.inj h
    exact of_decide_eq_true hd

theorem get_artifact_ok {hmacFn : HmacFn} {cfg : Config} {st : Store}
    {n : String} {v : Version} {a : Artifact}
    (h : get_artifact hmacFn cfg st n v = .ok a) :
    validate_artifact_name n = .ok () ∧ st.manifests n v = .present a ∧
      verify_signature hmacFn cfg a = .ok true := by
  unfold get_artifact at h
  split at h
  · exact Except.noConfusion h
  · rename_i u hval
    cases u
    split at h
    · exact Except.noConfusion h
    · rename_i a' hread
      split at h
      · exact Except.noConfusion h
      · rename_i okb hver
        split at h
        · rename_i hokb
          have ha := Except.ok.inj h
          subst ha
          rw [hokb] at hver
          exact ⟨hval, readCell_ok hread, hver⟩
        · exact Except.noConfusion h

theorem get_artifact_rejects {hmacFn : HmacFn} {cfg : Config} {st : Store}
    {n : String} {v : Version} {a : Artifact}
    (hval : validate_artifact_name n = .ok ())
    (hm : st.manifests n v = .present a)
    (hv : verify_signature hmacFn cfg a = .ok false) :
    get_artifact hmacFn cfg st n v = .error .wrongArtifactSignature := by
  simp [get_artifact, hval, hm, readCell, hv]


theorem list_artifact_versions_ok_of {st : Store} {n : String} {vs : List Version}
    (hval : validate_artifact_name n = .ok ())
    (hvs : st.versions n = .present vs) :
    list_artifact_versions st n = .ok vs := by
  simp [list_artifact_versions, hval, hvs, readCell]

theorem init_artifact_read_ok {st : Store} {n : String} {vs : List Version}
    (hval : validate_artifact_name n = .ok ())
    (hvs : st.versions n = .present vs) :
    init_artifact st n = (.ok vs, st, []) := by
  simp [init_artifact, hval, list_artifact_versions_ok_of hval hvs]

theorem init_artifact_writeIndex_absent {st : Store} {n : String}
    {r : Except Err (List Version)} {st₁ : Store} {tr₁ : List Event}
    (h : init_artifact st n = (r, st₁, tr₁)) (l : List String)
    (hm : Event.writeIndex l ∈ tr₁) : st.versions n = .absent := by
  unfold init_artifact at h
  split at h
  · injection h with h₁ h₂
    injection h₂ with h₂ h₃
    subst h₃
    simp at hm
  · rename_i u hval
    split at h
    · injection h with h₁ h₂
      injection h₂ with h₂ h₃
      subst h₃
      simp at hm
    · rename_i hlist
      unfold list_artifact_versions at hlist
      split at hlist
      · rename_i e₂ hval₂
        rw [hval] at hval₂
        exact Except.noConfusion hval₂
      · exact readCell_notFound hlist
    · rename_i e hlist hne
      injection h with h₁ h₂
      injection h₂ with h₂ h₃
      subst h₃
      simp at hm

theorem push_artifact_exists_rejected {digestFn : DigestFn} {hmacFn : HmacFn}
    {cfg : Config} {st : Store} {n : String} {v : Version}
    {files : List LocalFile} {vs : List Version}
    (hval : validate_artifact_name n = .ok ())
    (hvs : st.versions n = .present vs) (hmem : v ∈ vs) :
    push_artifact digestFn hmacFn cfg st n v files
      = (.error .artifactVersionAlreadyExists, st, []) := by
  unfold push_artifact
  rw [init_artifact_read_ok hval hvs]
  simp [hmem]

theorem push_artifact_ok_inv {digestFn : DigestFn} {hmacFn : HmacFn}
    {cfg : Config} {st : Store} {n : String} {v : Version}
    {files : List LocalFile} {a : Artifact}
    (h : (push_artifact digestFn hmacFn cfg st n v files).1 = .ok a) :
    ∃ vs st₁ tr₁ alg,
      init_artifact st n = (.ok vs, st₁, tr₁) ∧ v ∉ vs ∧
      get_publish_algorithm cfg = .ok alg ∧
      a = makeArtifact digestFn hmacFn alg v files ∧
      push_artifact digestFn hmacFn cfg st n v files =
        (.ok a,
         ((files.foldl (fun s f => s.setBlob n v f.name f.content) st₁).setManifest n v
             a).setVersions n (vs ++ [v]),
         tr₁ ++ files.map (fun f => Event.uploadFile (path.artifact.artifact_file n v f.name))
           ++ [.writeManifest (path.artifact.artifact n v) n v a,
               .writeVersions n (vs ++ [v])]) := by
  unfold push_artifact at h ⊢
  split at h
  · exact Except.noConfusion h
  · rename_i vs st₁ tr₁ heq
    split at h
    · exact Except.noConfusion h
    · rename_i hmem
      split at h
      · exact Except.noConfusion h
      · rename_i alg halg
        have ha : makeArtifact digestFn hmacFn alg v files = a := by
          simpa using h
        refine ⟨vs, st₁, tr₁, alg, heq, hmem, halg, ha.symm, ?_⟩
        subst ha
        split
        · rename_i hmem₂
          exact absurd hmem₂ hmem
        · rfl

theorem push_artifact_index_write {digestFn : DigestFn} {hmacFn : HmacFn}
    {cfg : Config} {st : Store} {n : String} {v : Version}
    {files : List LocalFile} {r : Except Err Artifact} {st' : Store}
    {tr : List Event}
    (h : push_artifact digestFn hmacFn cfg st n v files = (r, st', tr))
    (l : List String) (hm : Event.writeIndex l ∈ tr) :
    st.versions n = .absent := by
  unfold push_artifact at h
  split at h
  · rename_i e st₁ tr₁ heq
    injection h with h₁ h₂
    injection h₂ with h₂ h₃
    subst h₃
    exact init_artifact_writeIndex_absent heq l hm
  · rename_i vs st₁ tr₁ heq
    split at h
    · injection h with h₁ h₂
      injection h₂ with h₂ h₃
      subst h₃
      exact init_artifact_writeIndex_absent heq l hm
    · rename_i hmem
      split at h
      · injection h with h₁ h₂
        injection h₂ with h₂ h₃
        subst h₃
        exact init_artifact_writeIndex_absent heq l hm
      · rename_i alg halg
        injection h with h₁ h₂
        injection h₂ with h₂ h₃
        subst h₃
        rcases List.mem_append.1 hm with hm₁ | hm₂
        · rcases List.mem_append.1 hm₁ with hma | hmb
          · exact init_artifact_writeIndex_absent heq l hma
          · rcases List.mem_map.1 hmb with ⟨f, _, hef⟩
            exact Event.noConfusion hef
        · simp at hm₂


theorem init_artifact_ok_validate {st : Store} {n : String} {vs : List Version}
    {st₁ : Store} {tr₁ : List Event}
    (h : init_artifact st n = (.ok vs, st₁, tr₁)) :
    validate_artifact_name n = .ok () := by
  unfold init_artifact at h
  split at h
  · injection h with h₁ h₂
    exact Except.noConfusion h₁
  · rename_i u hval
    cases u
    exact hval

theorem init_artifact_ok_trace {st : Store} {n : String} {vs : List Version}
    {st₁ : Store} {tr₁ : List Event}
    (h : init_artifact st n = (.ok vs, st₁, tr₁)) :
    ∀ e ∈ tr₁, (∀ p, e ≠ Event.uploadFile p) ∧
      (∀ p n₂ v₂ a₂, e ≠ Event.writeManifest p n₂ v₂ a₂) ∧
      (∀ vs', e = Event.writeVersions n vs' → vs' = []) := by
  unfold init_artifact at h
  split at h
  · injection h with h₁ h₂
    exact Except.noConfusion h₁
  · rename_i u hval
    split at h
    · injection h with h₁ h₂
      injection h₂ with h₂ h₃
      subst h₃
      intro e he
      simp at he
    · rename_i hlist
      rcases hI : init st with ⟨arts, stI, trI⟩
      rw [hI] at h
      injection h with h₁ h₂
      injection h₂ with h₂ h₃
      subst h₃
      have htrI : ∀ e ∈ trI, e = Event.writeIndex [] := by
        unfold init at hI
        split at hI
        · injection hI with g₁ g₂
          injection g₂ with g₂ g₃
          subst g₃
          intro e he
          simp at he
        · injection hI with g₁ g₂
          injection g₂ with g₂ g₃
          subst g₃
          intro e he
          simpa using he
      intro e he
      rcases List.mem_append.1 he with he₁ | he₂
      · have := htrI e he₁
        subst this
        exact ⟨fun p hh => Event.noConfusion hh,
          fun p n₂ v₂ a₂ hh => Event.noConfusion hh,
          fun vs' hh => Event.noConfusion hh⟩
      · rcases List.mem_cons.1 he₂ with rfl | he₃
        · refine ⟨fun p hh => Event.noConfusion hh,
            fun p n₂ v₂ a₂ hh => Event.noConfusion hh, fun vs' hh => ?_⟩
          injection hh with hh₁ hh₂
          exact hh₂.symm
        · rcases List.mem_singleton.1 he₃ with rfl
          exact ⟨fun p hh => Event.noConfusion hh,
            fun p n₂ v₂ a₂ hh => Event.noConfusion hh,
            fun vs' hh => Event.noConfusion hh⟩
    · rename_i e' hlist hne
      injection h with h₁ h₂
      exact Except.noConfusion h₁

theorem init_of_index_present {st : Store} {arts : List String}
    (h : st.index = .present arts) : init st = (arts, st, []) := by
  simp [init, list_artifacts, h, readCell]

theorem init_artifact_absent_eq {st : Store} {n : String} {arts : List String}
    (hval : validate_artifact_name n = .ok ())
    (habs : st.versions n = .absent)
    (hidx : st.index = .present arts) :
    init_artifact st n
      = (.ok [], (st.setVersions n []).setIndex (arts ++ [n]),
         [.writeVersions n [], .writeIndex (arts ++ [n])]) := by
  have hlist : list_artifact_versions st n = .error .resourceNotFound := by
    simp [list_artifact_versions, hval, habs, readCell]
  simp [init_artifact, hval, hlist, init_of_index_present hidx]

theorem init_artifact_unreadable_eq {st : Store} {n : String}
    (hval : validate_artifact_name n = .ok ())
    (hun : st.versions n = .unreadable) :
    init_artifact st n = (.error .backendOther, st, []) := by
  have hlist : list_artifact_versions st n = .error .backendOther := by
    simp [list_artifact_versions, hval, hun, readCell]
  simp [init_artifact, hval, hlist]

theorem pull_artifact_error_dest (digestFn : DigestFn) (hmacFn : HmacFn)
    (cfg : Config) (st : Store) (n : String) (v : Version) (dest : Fs)
    (ow : Bool) :
    ∀ e, (pull_artifact digestFn hmacFn cfg st n v dest ow).1 = .error e →
      (pull_artifact digestFn hmacFn cfg st n v dest ow).2 = dest := by
  intro e
  unfold pull_artifact
  split
  · intro _; rfl
  · split
    · intro _; rfl
    · split
      · intro _; rfl
      · intro hh
        exact Except.noConfusion hh

theorem downloadAll_mismatch (digestFn : DigestFn) (st : Store) (n : String)
    (v : Version) :
    ∀ (files : List File) (tmp : Fs),
      (∀ f ∈ files, ∃ b, st.blobs n v f.name = .present b) →
      (∃ f ∈ files, ∃ b, st.blobs n v f.name = .present b ∧
        digestFn f.checksum_method b ≠ f.checksum) →
      ∃ nm, downloadAll digestFn st n v files tmp = .error (.wrongFileChecksum nm) ∧
        ∃ f ∈ files, f.name = nm ∧ ∃ b, st.blobs n v f.name = .present b ∧
          digestFn f.checksum_method b ≠ f.checksum := by
  intro files
  induction files with
  | nil =>
    intro tmp _ hbad
    rcases hbad with ⟨f, hf, _⟩
    simp at hf
  | cons f rest ih =>
    intro tmp hall hbad
    obtain ⟨b, hb⟩ := hall f (List.mem_cons_self f rest)
    by_cases hdig : digestFn f.checksum_method b = f.checksum
    · have hstep : downloadAll digestFn st n v (f :: rest) tmp
          = downloadAll digestFn st n v rest (tmp.insert f.name b) := by
        simp [downloadAll, copy_to_tmpdir, hb, hdig]
      have hbad' : ∃ g ∈ rest, ∃ b₂, st.blobs n v g.name = .present b₂ ∧
          digestFn g.checksum_method b₂ ≠ g.checksum := by
        rcases hbad with ⟨g, hg, b₂, hb₂, hne⟩
        rcases List.mem_cons.1 hg with rfl | hg₂
        · rw [hb] at hb₂
          have hbe := Cell.present.inj hb₂
          subst hbe
          exact absurd hdig hne
        · exact ⟨g, hg₂, b₂, hb₂, hne⟩
      obtain ⟨nm, hres, g, hg, hnm, hbb⟩ :=
        ih (tmp.insert f.name b) (fun g hg => hall g (List.mem_cons_of_mem f hg)) hbad'
      exact ⟨nm, by rw [hstep]; exact hres, g, List.mem_cons_of_mem f hg, hnm, hbb⟩
    · refine ⟨f.name, ?_, f, List.mem_cons_self f rest, rfl, b, hb, hdig⟩
      simp [downloadAll, copy_to_tmpdir, hb, hdig]


theorem last_version_eq {st : Store} {n : String} {vs : List Version}
    (req : VersionReq) (hval : validate_artifact_name n = .ok ())
    (hvs : st.versions n = .present vs) :
    last_version st n req
      = .ok (List.insertionSort versionLe
          (vs.filter (fun v => matchesReq req v))).getLast? := by
  simp [last_version, list_artifact_versions_ok_of hval hvs]

theorem pull_artifact_ok_get {digestFn : DigestFn} {hmacFn : HmacFn}
    {cfg : Config} {st : Store} {n : String} {v : Version} {dest : Fs}
    {ow : Bool} {a : Artifact}
    (h : (pull_artifact digestFn hmacFn cfg st n v dest ow).1 = .ok a) :
    get_artifact hmacFn cfg st n v = .ok a := by
  unfold pull_artifact at h
  split at h
  · exact Except.noConfusion h
  · rename_i a' hget
    split at h
    · exact Except.noConfusion h
    · rename_i tmp hdl
      split at h
      · exact Except.noConfusion h
      · rename_i dest₁ hcp
        have ha := Except.ok.inj h
        subst ha
        exact hget

theorem downloadAll_mono {digestFn : DigestFn} {st : Store} {n : String}
    {v : Version} :
    ∀ {files : List File} {tmp tmp' : Fs},
      downloadAll digestFn st n v files tmp = .ok tmp' →
      ∀ k b, tmp k = some b → ∃ b', tmp' k = some b' := by
  intro files
  induction files with
  | nil =>
    intro tmp tmp' h k b hk
    have := Except.ok.inj h
    subst this
    exact ⟨b, hk⟩
  | cons f rest ih =>
    intro tmp tmp' h k b hk
    unfold downloadAll at h
    split at h
    · exact Except.noConfusion h
    · rename_i tmp₁ hcopy
      unfold copy_to_tmpdir at hcopy
      split at hcopy
      · rename_i bb hbb
        split at hcopy
        · have h₁ := Except.ok.inj hcopy
          subst h₁
          by_cases hkf : k = f.name
          · subst hkf
            exact ih h f.name bb (by simp [Fs.insert])
          · exact ih h k b (by simp [Fs.insert, hkf]; exact hk)
        · exact Except.noConfusion hcopy
      · exact Except.noConfusion hcopy
      · exact Except.noConfusion hcopy

theorem downloadAll_present {digestFn : DigestFn} {st : Store} {n : String}
    {v : Version} :
    ∀ {files : List File} {tmp tmp' : Fs},
      downloadAll digestFn st n v files tmp = .ok tmp' →
      ∀ f ∈ files, ∃ b, tmp' f.name = some b := by
  intro files
  induction files with
  | nil =>
    intro tmp tmp' _ f hf
    simp at hf
  | cons g rest ih =>
    intro tmp tmp' h f hf
    unfold downloadAll at h
    split at h
    · exact Except.noConfusion h
    · rename_i tmp₁ hcopy
      unfold copy_to_tmpdir at hcopy
      split at hcopy
      · rename_i bb hbb
        split at hcopy
        · have h₁ := Except.ok.inj hcopy
          subst h₁
          rcases List.mem_cons.1 hf with rfl | hf₂
          · exact downloadAll_mono h f.name bb (by simp [Fs.insert])
          · exact ih h f hf₂
        · exact Except.noConfusion hcopy
      · exact Except.noConfusion hcopy
      · exact Except.noConfusion hcopy

theorem moveAll_some_mono (tmp : Fs) :
    ∀ (files : List File) (d : Fs) (k : String) (b : Bytes), d k = some b →
      ∃ b', moveAll tmp files d k = some b' := by
  intro files
  induction files with
  | nil => intro d k b hk; exact ⟨b, hk⟩
  | cons f rest ih =>
    intro d k b hk
    show ∃ b', moveAll tmp rest
        (match tmp f.name with
          | some bb => d.insert f.name bb
          | none => d) k = some b'
    cases htf : tmp f.name with
    | none => exact ih d k b hk
    | some bb =>
      by_cases hkf : k = f.name
      · subst hkf
        exact ih (d.insert f.name bb) f.name bb (by simp [Fs.insert])
      · exact ih (d.insert f.name bb) k b (by simp [Fs.insert, hkf]; exact hk)

theorem moveAll_present (tmp : Fs) :
    ∀ (files : List File) (d : Fs) (f : File), f ∈ files →
      (∃ b, tmp f.name = some b) →
      ∃ b', moveAll tmp files d f.name = some b' := by
  intro files
  induction files with
  | nil => intro d f hf; simp at hf
  | cons g rest ih =>
    intro d f hf hex
    obtain ⟨b, hb⟩ := hex
    show ∃ b', moveAll tmp rest
        (match tmp g.name with
          | some bb => d.insert g.name bb
          | none => d) f.name = some b'
    rcases List.mem_cons.1 hf with rfl | hf₂
    · rw [hb]
      exact moveAll_some_mono tmp rest (d.insert f.name b) f.name b
        (by simp [Fs.insert])
    · cases htg : tmp g.name with
      | none => exact ih d f hf₂ ⟨b, hb⟩
      | some bb => exact ih (d.insert g.name bb) f hf₂ ⟨b, hb⟩

theorem moveAll_unnamed (tmp : Fs) :
    ∀ (files : List File) (d : Fs) (k : String),
      (∀ f ∈ files, f.name ≠ k) → moveAll tmp files d k = d k := by
  intro files
  induction files with
  | nil => intro d k _; rfl
  | cons g rest ih =>
    intro d k hk
    show moveAll tmp rest
        (match tmp g.name with
          | some bb => d.insert g.name bb
          | none => d) k = d k
    cases htg : tmp g.name with
    | none => exact ih d k (fun f hf => hk f (List.mem_cons_of_mem g hf))
    | some bb =>
      rw [ih (d.insert g.name bb) k (fun f hf => hk f (List.mem_cons_of_mem g hf))]
      have hne : k ≠ g.name := fun hh => hk g (List.mem_cons_self g rest) hh.symm
      simp [Fs.insert, hne]

theorem erase_fold_none :
    ∀ (files : List File) (fs : Fs) (k : String), fs k = none →
      (files.foldl (fun d f => d.erase f.name) fs) k = none := by
  intro files
  induction files with
  | nil => intro fs k hk; exact hk
  | cons g rest ih =>
    intro fs k hk
    exact ih (fs.erase g.name) k (by simp [Fs.erase, hk])

theorem erase_fold_mem :
    ∀ (files : List File) (fs : Fs) (g : File), g ∈ files →
      (files.foldl (fun d f => d.erase f.name) fs) g.name = none := by
  intro files
  induction files with
  | nil => intro fs g hg; simp at hg
  | cons f rest ih =>
    intro fs g hg
    rcases List.mem_cons.1 hg with rfl | hg₂
    · exact erase_fold_none rest (fs.erase g.name) g.name (by simp [Fs.erase])
    · exact ih (fs.erase f.name) g hg₂

theorem pull_artifact_ok_tmp {digestFn : DigestFn} {hmacFn : HmacFn}
    {cfg : Config} {st : Store} {n : String} {v : Version} {dest : Fs}
    {ow : Bool} {a : Artifact}
    (h : (pull_artifact digestFn hmacFn cfg st n v dest ow).1 = .ok a) :
    ∀ f ∈ a.files,
      ∃ b, (pull_artifact digestFn hmacFn cfg st n v dest ow).2 f.name = some b := by
  unfold pull_artifact at h ⊢
  split at h
  · exact Except.noConfusion h
  · rename_i a' hget
    split at h
    · exact Except.noConfusion h
    · rename_i tmp hdl
      split at h
      · exact Except.noConfusion h
      · rename_i dest₁ hcp
        have ha := Except.ok.inj h
        subst ha
        intro f hf
        exact moveAll_present tmp _ dest₁ f hf (downloadAll_present hdl f hf)

theorem syncUpdate_fst_ok {digestFn : DigestFn} {hmacFn : HmacFn} {cfg : Config}
    {st : Store} {n : String} {latest : Version} {metaOpt : Option SyncMetadata}
    {dest : DestDir} {now : String} {sr : SyncResult}
    (h : (syncUpdate digestFn hmacFn cfg st n latest metaOpt dest now).1 = .ok sr) :
    sr.status = .updated ∧
    (pull_artifact digestFn hmacFn cfg st n latest emptyFs true).1 = .ok sr.artifact ∧
    syncUpdate digestFn hmacFn cfg st n latest metaOpt dest now
      = (.ok sr,
         { files := moveAll (pull_artifact digestFn hmacFn cfg st n latest emptyFs true).2
             sr.artifact.files (removeOldFiles metaOpt dest.files)
           meta := fun q => if q = n then some ⟨now, sr.artifact⟩ else dest.meta q }) := by
  unfold syncUpdate at h ⊢
  split at h
  · exact Except.noConfusion h
  · rename_i a' tmp heq
    have hsr := Except.ok.inj h
    subst hsr
    refine ⟨rfl, ?_, ?_⟩
    · rw [heq]
    · rw [heq]

theorem sync_updated_inv {digestFn : DigestFn} {hmacFn : HmacFn} {cfg : Config}
    {st : Store} {n : String} {req : VersionReq} {dest : DestDir} {now : String}
    {a : Artifact}
    (h : (sync digestFn hmacFn cfg st n req dest now).1 = .ok ⟨a, .updated⟩) :
    ∃ latest, last_version st n req = .ok (some latest) ∧
      (pull_artifact digestFn hmacFn cfg st n latest emptyFs true).1 = .ok a ∧
      sync digestFn hmacFn cfg st n req dest now
        = (.ok ⟨a, .updated⟩,
           { files := moveAll (pull_artifact digestFn hmacFn cfg st n latest emptyFs true).2
               a.files (removeOldFiles (dest.meta n) dest.files)
             meta := fun q => if q = n then some ⟨now, a⟩ else dest.meta q }) := by
  unfold sync at h ⊢
  split at h
  · exact Except.noConfusion h
  · exact Except.noConfusion h
  · rename_i latest hlast
    split at h
    · rename_i m hmeta
      split at h
      · have hh := Except.ok.inj h
        exact absurd (congrArg SyncResult.status hh) (by simp)
      · rename_i hne
        obtain ⟨hst, hpull, heqn⟩ := syncUpdate_fst_ok h
        refine ⟨latest, hlast, hpull, ?_⟩
        rw [heqn, hmeta]
        rw [if_neg hne]
    · rename_i hmeta
      obtain ⟨hst, hpull, heqn⟩ := syncUpdate_fst_ok h
      refine ⟨latest, hlast, hpull, ?_⟩
      rw [heqn, hmeta]

/-! ## Claim theorems -/

/-- C1: for every artifact name and version, `get_artifact` reads the
ArtifactManifest, recomputes the signed string as the concatenation of each
file's name followed by its checksum in manifest order (`signedMessage`),
obtains a verifier selected by the manifest's own `signature_method` and
`key_id` (`get_key_bytes`), and fails with `WrongArtifactSignature` whenever
verification returns false; `get_artifact` never returns a manifest whose
signature has not been verified. -/
theorem get_artifact_verifies (hmacFn : HmacFn) (cfg : Config) (st : Store)
    (n : String) (v : Version) (a : Artifact)
    (hval : validate_artifact_name n = .ok ()) :
    (get_artifact hmacFn cfg st n v = .ok a →
      st.manifests n v = .present a ∧
      ∃ key, get_key_bytes cfg a.signature.key_id a.signature.signature_method
          = .ok key ∧
        hmacFn a.signature.signature_method key (signedMessage a.files)
          = a.signature.signature) ∧
    (st.manifests n v = .present a → verify_signature hmacFn cfg a = .ok false →
      get_artifact hmacFn cfg st n v = .error .wrongArtifactSignature) := by
  constructor
  · intro h
    obtain ⟨_, hm, hv⟩ := get_artifact_ok h
    exact ⟨hm, verify_signature_ok_true hv⟩
  · intro hm hv
    exact get_artifact_rejects hval hm hv

theorem get_artifact_verifies_witness :
    validate_artifact_name "a" = .ok () ∧
    ((get_artifact exHmac exCfg exStore "a" exVersion = .ok exArtifact →
        exStore.manifests "a" exVersion = .present exArtifact ∧
        ∃ key, get_key_bytes exCfg exArtifact.signature.key_id
            exArtifact.signature.signature_method = .ok key ∧
          exHmac exArtifact.signature.signature_method key
              (signedMessage exArtifact.files) = exArtifact.signature.signature) ∧
      (exStore.manifests "a" exVersion = .present exArtifact →
        verify_signature exHmac exCfg exArtifact = .ok false →
        get_artifact exHmac exCfg exStore "a" exVersion
          = .error .wrongArtifactSignature)) :=
  ⟨by decide,
   get_artifact_verifies exHmac exCfg exStore "a" exVersion exArtifact (by decide)⟩

/-- C2 counterexample: the source's `path::artifact::artifact` renders the
manifest path `a/1.2.3/versions.sane`, not `a/1.2.3/artifact.sane` as the
claim states. -/
theorem manifest_path_not_artifact_sane :
    path.artifact.artifact "a" ⟨1, 2, 3, [], []⟩ = "a/1.2.3/versions.sane" ∧
    path.artifact.artifact "a" ⟨1, 2, 3, [], []⟩ ≠ "a/1.2.3/artifact.sane" := by
  constructor
  · decide
  · decide

/-- C2 amended: the ArtifactManifest is written to and read from the backend
path `<name>/<version>/versions.sane` (with `<version>` the canonical SemVer
rendering): a successful push records the manifest write at
`path.artifact.artifact n v`, the manifest lands in the cell that
`get_artifact` reads, and that path renders as
`n ++ "/" ++ versionToString v ++ "/versions.sane"`. -/
theorem push_manifest_path (digestFn : DigestFn) (hmacFn : HmacFn)
    (cfg : Config) (st : Store) (n : String) (v : Version)
    (files : List LocalFile) (a : Artifact)
    (h : (push_artifact digestFn hmacFn cfg st n v files).1 = .ok a) :
    Event.writeManifest (path.artifact.artifact n v) n v a
        ∈ (push_artifact digestFn hmacFn cfg st n v files).2.2 ∧
    (push_artifact digestFn hmacFn cfg st n v files).2.1.manifests n v
        = .present a ∧
    path.artifact.artifact n v
      = n ++ "/" ++ versionToString v ++ "/versions.sane" := by
  obtain ⟨vs, st₁, tr₁, alg, hinit, hmem, halg, ha, heqn⟩ := push_artifact_ok_inv h
  rw [heqn]
  refine ⟨?_, ?_, rfl⟩
  · simp
  · simp [Store.setVersions, Store.setManifest]

theorem push_manifest_path_witness :
    ((push_artifact exDigest exHmac exCfg exStore "a" exVersion2 [exLocal]).1
        = .ok exArtifact2) ∧
    (Event.writeManifest (path.artifact.artifact "a" exVersion2) "a" exVersion2
          exArtifact2
        ∈ (push_artifact exDigest exHmac exCfg exStore "a" exVersion2 [exLocal]).2.2 ∧
      (push_artifact exDigest exHmac exCfg exStore "a" exVersion2
            [exLocal]).2.1.manifests "a" exVersion2 = .present exArtifact2 ∧
      path.artifact.artifact "a" exVersion2
        = "a" ++ "/" ++ versionToString exVersion2 ++ "/versions.sane") :=
  ⟨by decide,
   push_manifest_path exDigest exHmac exCfg exStore "a" exVersion2 [exLocal]
     exArtifact2 (by decide)⟩

/-- C3: on every failure of `pull_artifact` the destination directory is left
exactly as it was (downloads happen in a temporary directory that is
discarded), and when every payload downloads but some recomputed digest
differs from the manifest checksum, the pull fails with `WrongFileChecksum`
naming such a file. -/
theorem pull_checksum_guard (digestFn : DigestFn) (hmacFn : HmacFn)
    (cfg : Config) (st : Store) (n : String) (v : Version) (dest : Fs)
    (ow : Bool) (a : Artifact) :
    (∀ e, (pull_artifact digestFn hmacFn cfg st n v dest ow).1 = .error e →
      (pull_artifact digestFn hmacFn cfg st n v dest ow).2 = dest) ∧
    (get_artifact hmacFn cfg st n v = .ok a →
      (∀ f ∈ a.files, ∃ b, st.blobs n v f.name = .present b) →
      (∃ f ∈ a.files, ∃ b, st.blobs n v f.name = .present b ∧
        digestFn f.checksum_method b ≠ f.checksum) →
      ∃ nm, (pull_artifact digestFn hmacFn cfg st n v dest ow).1
            = .error (.wrongFileChecksum nm) ∧
        (∃ f ∈ a.files, f.name = nm ∧ ∃ b, st.blobs n v f.name = .present b ∧
          digestFn f.checksum_method b ≠ f.checksum) ∧
        (pull_artifact digestFn hmacFn cfg st n v dest ow).2 = dest) := by
  constructor
  · exact pull_artifact_error_dest digestFn hmacFn cfg st n v dest ow
  · intro hget hall hbad
    obtain ⟨nm, hres, hw⟩ :=
      downloadAll_mismatch digestFn st n v a.files emptyFs hall hbad
    have hp : (pull_artifact digestFn hmacFn cfg st n v dest ow).1
        = .error (.wrongFileChecksum nm) := by
      simp [pull_artifact, hget, hres]
    exact ⟨nm, hp, hw,
      pull_artifact_error_dest digestFn hmacFn cfg st n v dest ow _ hp⟩

theorem pull_checksum_guard_witness :
    (get_artifact exHmac exCfg tamperStore "a" exVersion = .ok exArtifact) ∧
    (∀ f ∈ exArtifact.files, ∃ b, tamperStore.blobs "a" exVersion f.name = .present b) ∧
    (∃ f ∈ exArtifact.files, ∃ b, tamperStore.blobs "a" exVersion f.name = .present b ∧
      exDigest f.checksum_method b ≠ f.checksum) ∧
    (∃ nm, (pull_artifact exDigest exHmac exCfg tamperStore "a" exVersion emptyFs false).1
          = .error (.wrongFileChecksum nm) ∧
      (∃ f ∈ exArtifact.files, f.name = nm ∧
        ∃ b, tamperStore.blobs "a" exVersion f.name = .present b ∧
          exDigest f.checksum_method b ≠ f.checksum) ∧
      (pull_artifact exDigest exHmac exCfg tamperStore "a" exVersion emptyFs false).2
        = emptyFs) :=
  ⟨by decide,
   fun f hf => ⟨[5, 6, 7], by
     rcases List.mem_singleton.1 hf with rfl
     decide⟩,
   ⟨exFile, by decide, [5, 6, 7], by decide, by decide⟩,
   (pull_checksum_guard exDigest exHmac exCfg tamperStore "a" exVersion emptyFs
       false exArtifact).2 (by decide)
     (fun f hf => ⟨[5, 6, 7], by
       rcases List.mem_singleton.1 hf with rfl
       decide⟩)
     ⟨exFile, by decide, [5, 6, 7], by decide, by decide⟩⟩

/-- C4: a push of a version already present in the VersionList fails with
`ArtifactVersionAlreadyExists` before performing any backend write (the
store is unchanged and the write trace is empty), so a second push of the
same (name, version) fails and leaves everything the first push wrote
intact. -/
theorem push_republish_rejected (digestFn : DigestFn) (hmacFn : HmacFn)
    (cfg : Config) (st : Store) (n : String) (v : Version)
    (files files₂ : List LocalFile) (vs : List Version) (a : Artifact) :
    (validate_artifact_name n = .ok () → st.versions n = .present vs → v ∈ vs →
      push_artifact digestFn hmacFn cfg st n v files
        = (.error .artifactVersionAlreadyExists, st, [])) ∧
    ((push_artifact digestFn hmacFn cfg st n v files).1 = .ok a →
      push_artifact digestFn hmacFn cfg
          (push_artifact digestFn hmacFn cfg st n v files).2.1 n v files₂
        = (.error .artifactVersionAlreadyExists,
           (push_artifact digestFn hmacFn cfg st n v files).2.1, [])) := by
  constructor
  · intro hval hvs hmem
    exact push_artifact_exists_rejected hval hvs hmem
  · intro h
    obtain ⟨vs₀, st₁, tr₁, alg, hinit, hmem, halg, ha, heqn⟩ :=
      push_artifact_ok_inv h
    have hval : validate_artifact_name n = .ok () :=
      init_artifact_ok_validate hinit
    rw [heqn]
    have hvs' : ((((files.foldl (fun s f => s.setBlob n v f.name f.content)
          st₁).setManifest n v a).setVersions n (vs₀ ++ [v])).versions n)
        = Cell.present (vs₀ ++ [v]) := by
      simp [Store.setVersions]
    exact push_artifact_exists_rejected hval hvs' (by simp)

theorem push_republish_rejected_witness :
    push_artifact exDigest exHmac exCfg exStore "a" exVersion [exLocal]
        = (.error .artifactVersionAlreadyExists, exStore, []) ∧
    ((push_artifact exDigest exHmac exCfg exStore "a" exVersion2 [exLocal]).1
        = .ok exArtifact2) ∧
    push_artifact exDigest exHmac exCfg
        (push_artifact exDigest exHmac exCfg exStore "a" exVersion2 [exLocal]).2.1
        "a" exVersion2 [exLocal]
      = (.error .artifactVersionAlreadyExists,
         (push_artifact exDigest exHmac exCfg exStore "a" exVersion2 [exLocal]).2.1,
         []) :=
  ⟨(push_republish_rejected exDigest exHmac exCfg exStore "a" exVersion [exLocal]
      [exLocal] [exVersion] exArtifact).1 (by decide) (by decide) (by decide),
   by decide,
   (push_republish_rejected exDigest exHmac exCfg exStore "a" exVersion2 [exLocal]
      [exLocal] [] exArtifact2).2 (by decide)⟩

/-- C5: in every successful push the backend writes happen in order: any
events before the uploads come from artifact initialization and contain no
upload, no manifest write, and no version-list write mentioning the pushed
version; then every payload upload; then the manifest write; and last the
version-list write that appends the version. -/
theorem push_write_order (digestFn : DigestFn) (hmacFn : HmacFn) (cfg : Config)
    (st : Store) (n : String) (v : Version) (files : List LocalFile)
    (a : Artifact)
    (h : (push_artifact digestFn hmacFn cfg st n v files).1 = .ok a) :
    ∃ pre vs₀,
      (push_artifact digestFn hmacFn cfg st n v files).2.2
        = pre
          ++ files.map (fun f => Event.uploadFile (path.artifact.artifact_file n v f.name))
          ++ [.writeManifest (path.artifact.artifact n v) n v a,
              .writeVersions n (vs₀ ++ [v])] ∧
      ∀ e ∈ pre, (∀ p, e ≠ .uploadFile p) ∧
        (∀ p n₂ v₂ a₂, e ≠ .writeManifest p n₂ v₂ a₂) ∧
        (∀ vs', e = .writeVersions n vs' → v ∉ vs') := by
  obtain ⟨vs₀, st₁, tr₁, alg, hinit, hmem, halg, ha, heqn⟩ :=
    push_artifact_ok_inv h
  refine ⟨tr₁, vs₀, ?_, ?_⟩
  · rw [heqn]
  · intro e he
    obtain ⟨h₁, h₂, h₃⟩ := init_artifact_ok_trace hinit e he
    refine ⟨h₁, h₂, fun vs' hh => ?_⟩
    rw [h₃ vs' hh]
    exact List.not_mem_nil v

theorem push_write_order_witness :
    ((push_artifact exDigest exHmac exCfg exStore "a" exVersion2 [exLocal]).1
        = .ok exArtifact2) ∧
    (∃ pre vs₀,
      (push_artifact exDigest exHmac exCfg exStore "a" exVersion2 [exLocal]).2.2
        = pre
          ++ [exLocal].map
              (fun f => Event.uploadFile (path.artifact.artifact_file "a" exVersion2 f.name))
          ++ [.writeManifest (path.artifact.artifact "a" exVersion2) "a" exVersion2
                exArtifact2,
              .writeVersions "a" (vs₀ ++ [exVersion2])] ∧
      ∀ e ∈ pre, (∀ p, e ≠ .uploadFile p) ∧
        (∀ p n₂ v₂ a₂, e ≠ .writeManifest p n₂ v₂ a₂) ∧
        (∀ vs', e = .writeVersions "a" vs' → exVersion2 ∉ vs')) :=
  ⟨by decide,
   push_write_order exDigest exHmac exCfg exStore "a" exVersion2 [exLocal]
     exArtifact2 (by decide)⟩

/-- C6 counterexample: when the index already names the artifact but its
version list is absent, the initialization path appends the name again, so
the index is written with a duplicate — the name is not "added only if it is
absent". -/
theorem init_appends_name_even_if_present :
    dupStore.index = .present ["a"] ∧ "a" ∈ ["a"] ∧
    (init_artifact dupStore "a").2.1.index = .present ["a", "a"] :=
  ⟨rfl, by decide, by decide⟩

/-- C6 amended: during push, when reading the VersionList fails with the
backend's not-found error, the repository lazily creates an empty
`<name>/versions.sane` and rewrites `/artifacts.sane` with the artifact name
appended unconditionally (a duplicate entry results when the name is already
indexed); when the read fails with any other error the push aborts without
writing; and within the repository operations only this initialization path
ever writes `/artifacts.sane` (`list_artifacts`, `list_artifact_versions`,
`get_artifact` and `pull_artifact` take the store immutably by type). -/
theorem init_artifact_lazy_creation (st : Store) (n : String)
    (arts : List String) (hval : validate_artifact_name n = .ok ()) :
    (st.versions n = .absent → st.index = .present arts →
      init_artifact st n
        = (.ok [], (st.setVersions n []).setIndex (arts ++ [n]),
           [.writeVersions n [], .writeIndex (arts ++ [n])])) ∧
    (st.versions n = .unreadable →
      init_artifact st n = (.error .backendOther, st, [])) ∧
    (∀ digestFn hmacFn cfg v files r st' tr l,
      push_artifact digestFn hmacFn cfg st n v files = (r, st', tr) →
      Event.writeIndex l ∈ tr → st.versions n = .absent) := by
  refine ⟨fun habs hidx => init_artifact_absent_eq hval habs hidx,
    fun hun => init_artifact_unreadable_eq hval hun,
    fun digestFn hmacFn cfg v files r st' tr l hpush hm =>
      push_artifact_index_write hpush l hm⟩

theorem init_artifact_lazy_creation_witness :
    validate_artifact_name "a" = .ok () ∧
    ((dupStore.versions "a" = .absent → dupStore.index = .present ["a"] →
        init_artifact dupStore "a"
          = (.ok [], (dupStore.setVersions "a" []).setIndex (["a"] ++ ["a"]),
             [.writeVersions "a" [], .writeIndex (["a"] ++ ["a"])])) ∧
      (dupStore.versions "a" = .unreadable →
        init_artifact dupStore "a" = (.error .backendOther, dupStore, [])) ∧
      (∀ digestFn hmacFn cfg v files r st' tr l,
        push_artifact digestFn hmacFn cfg dupStore "a" v files = (r, st', tr) →
        Event.writeIndex l ∈ tr → dupStore.versions "a" = .absent)) :=
  ⟨by decide, init_artifact_lazy_creation dupStore "a" ["a"] (by decide)⟩


/-- C7: `sync` materializes the maximum version of the VersionList that the
requirement matches (`last_version` filters, sorts by the SemVer order and
takes the last element); when no listed version matches it fails with
`NoVersionMatching`; the requirement strings `latest` and `any` parse to the
wildcard `*` (`VersionReq::STAR`), which matches exactly the versions with
no pre-release tag. -/
theorem sync_targets_max (digestFn : DigestFn) (hmacFn : HmacFn) (cfg : Config)
    (st : Store) (n : String) (req : VersionReq) (dest : DestDir) (now : String)
    (vs : List Version) (t : Version)
    (fallback : String → Except String VersionReq)
    (hval : validate_artifact_name n = .ok ())
    (hvs : st.versions n = .present vs) :
    (last_version st n req = .ok (some t) →
      t ∈ vs.filter (fun v => matchesReq req v) ∧
      ∀ w ∈ vs.filter (fun v => matchesReq req v), versionLe w t) ∧
    (vs.filter (fun v => matchesReq req v) = [] →
      sync digestFn hmacFn cfg st n req dest now
        = (.error .noVersionMatching, dest)) ∧
    (∀ a dest₂,
      sync digestFn hmacFn cfg st n req dest now = (.ok ⟨a, .updated⟩, dest₂) →
      ∃ tv, last_version st n req = .ok (some tv) ∧
        st.manifests n tv = .present a) ∧
    (parse_version_req fallback "latest" = .ok starReq ∧
      parse_version_req fallback "any" = .ok starReq) ∧
    (∀ w, matchesReq starReq w = true ↔ w.pre = []) := by
  refine ⟨?_, ?_, ?_,
    ⟨by simp [parse_version_req], by simp [parse_version_req]⟩, ?_⟩
  · intro hlast
    rw [last_version_eq req hval hvs] at hlast
    exact insertionSort_versionLe_getLast?_max (Except.ok.inj hlast)
  · intro hempty
    have hlast : last_version st n req = .ok none := by
      rw [last_version_eq req hval hvs, hempty]
      rfl
    simp [sync, hlast]
  · intro a dest₂ hsync
    have h₁ : (sync digestFn hmacFn cfg st n req dest now).1 = .ok ⟨a, .updated⟩ := by
      rw [hsync]
    obtain ⟨latest, hlast, hpull, _⟩ := sync_updated_inv h₁
    obtain ⟨_, hm, _⟩ := get_artifact_ok (pull_artifact_ok_get hpull)
    exact ⟨latest, hlast, hm⟩
  · intro w
    simp [matchesReq, starReq]

theorem sync_targets_max_witness :
    validate_artifact_name "a" = .ok () ∧
    exStore.versions "a" = .present [exVersion] ∧
    ((last_version exStore "a" starReq = .ok (some exVersion) →
        exVersion ∈ [exVersion].filter (fun v => matchesReq starReq v) ∧
        ∀ w ∈ [exVersion].filter (fun v => matchesReq starReq v),
          versionLe w exVersion) ∧
      ([exVersion].filter (fun v => matchesReq starReq v) = [] →
        sync exDigest exHmac exCfg exStore "a" starReq exDest "t0"
          = (.error .noVersionMatching, exDest)) ∧
      (∀ a dest₂,
        sync exDigest exHmac exCfg exStore "a" starReq exDest "t0"
            = (.ok ⟨a, .updated⟩, dest₂) →
        ∃ tv, last_version exStore "a" starReq = .ok (some tv) ∧
          exStore.manifests "a" tv = .present a) ∧
      (parse_version_req (fun s => .error s) "latest" = .ok starReq ∧
        parse_version_req (fun s => .error s) "any" = .ok starReq) ∧
      (∀ w, matchesReq starReq w = true ↔ w.pre = [])) :=
  ⟨by decide, by decide,
   sync_targets_max exDigest exHmac exCfg exStore "a" starReq exDest "t0"
     [exVersion] exVersion (fun s => .error s) (by decide) (by decide)⟩

/-- C8: for a fixed repository state, a sync that returns `Updated` followed
by a sync with identical arguments returns `UpToDate` with the stored
manifest, and the second call leaves the destination directory unchanged
(the stored SyncMetadata's manifest version equals the computed target, so
the up-to-date branch returns the stored manifest and touches no files).
The hypothesis ties the updated manifest's version to the computed target,
which holds for every store whose manifests record their own version. -/
theorem sync_idempotent (digestFn : DigestFn) (hmacFn : HmacFn) (cfg : Config)
    (st : Store) (n : String) (req : VersionReq) (dest : DestDir)
    (now now₂ : String) (a : Artifact)
    (h₁ : (sync digestFn hmacFn cfg st n req dest now).1 = .ok ⟨a, .updated⟩)
    (h₂ : last_version st n req = .ok (some a.version)) :
    sync digestFn hmacFn cfg st n req
        (sync digestFn hmacFn cfg st n req dest now).2 now₂
      = (.ok ⟨a, .upToDate⟩, (sync digestFn hmacFn cfg st n req dest now).2) := by
  obtain ⟨latest, hlast, hpull, hS⟩ := sync_updated_inv h₁
  have hlat : latest = a.version := by
    rw [hlast] at h₂
    exact Option.some.inj (Except.ok.inj h₂)
  rw [hS]
  simp [sync, hlast, hlat]

theorem sync_idempotent_witness :
    ((sync exDigest exHmac exCfg exStore "a" starReq exDest "t0").1
        = .ok ⟨exArtifact, .updated⟩) ∧
    (last_version exStore "a" starReq = .ok (some exArtifact.version)) ∧
    sync exDigest exHmac exCfg exStore "a" starReq
        (sync exDigest exHmac exCfg exStore "a" starReq exDest "t0").2 "t1"
      = (.ok ⟨exArtifact, .upToDate⟩,
         (sync exDigest exHmac exCfg exStore "a" starReq exDest "t0").2) :=
  ⟨by decide, by decide,
   sync_idempotent exDigest exHmac exCfg exStore "a" starReq exDest "t0" "t1"
     exArtifact (by decide) (by decide)⟩

/-- C9: after a sync that returns `Updated` with manifest `a`, every file
named in `a` exists in the destination directory, and every file named in
the previously synced manifest (the stored SyncMetadata) whose name is not
among `a`'s files has been removed from the destination directory. -/
theorem sync_file_presence (digestFn : DigestFn) (hmacFn : HmacFn)
    (cfg : Config) (st : Store) (n : String) (req : VersionReq)
    (dest : DestDir) (now : String) (a : Artifact)
    (h : (sync digestFn hmacFn cfg st n req dest now).1 = .ok ⟨a, .updated⟩) :
    (∀ f ∈ a.files,
      ∃ b, (sync digestFn hmacFn cfg st n req dest now).2.files f.name = some b) ∧
    (∀ m, dest.meta n = some m → ∀ g ∈ m.artifact.files,
      (∀ f ∈ a.files, f.name ≠ g.name) →
      (sync digestFn hmacFn cfg st n req dest now).2.files g.name = none) := by
  obtain ⟨latest, hlast, hpull, hS⟩ := sync_updated_inv h
  rw [hS]
  constructor
  · intro f hf
    exact moveAll_present (pull_artifact digestFn hmacFn cfg st n latest emptyFs true).2
      a.files (removeOldFiles (dest.meta n) dest.files) f hf
      (pull_artifact_ok_tmp hpull f hf)
  · intro m hm g hg hnot
    show moveAll _ a.files (removeOldFiles (dest.meta n) dest.files) g.name = none
    rw [moveAll_unnamed _ a.files _ g.name hnot, hm]
    exact erase_fold_mem m.artifact.files dest.files g hg

theorem sync_file_presence_witness :
    ((sync exDigest exHmac exCfg exStore "a" starReq oldDest "t0").1
        = .ok ⟨exArtifact, .updated⟩) ∧
    ((∀ f ∈ exArtifact.files,
        ∃ b, (sync exDigest exHmac exCfg exStore "a" starReq oldDest "t0").2.files
            f.name = some b) ∧
      (∀ m, oldDest.meta "a" = some m → ∀ g ∈ m.artifact.files,
        (∀ f ∈ exArtifact.files, f.name ≠ g.name) →
        (sync exDigest exHmac exCfg exStore "a" starReq oldDest "t0").2.files
            g.name = none)) :=
  ⟨by decide,
   sync_file_presence exDigest exHmac exCfg exStore "a" starReq oldDest "t0"
     exArtifact (by decide)⟩

/-- C10: whenever SyncMetadata exists in the destination and its embedded
manifest's version equals the computed target, `sync` returns `UpToDate`
with the stored manifest on the strength of that version comparison alone:
the result holds for every digest function, every HMAC function, every
store with that version list, and every destination file content (including
one with the manifest's files deleted or tampered), and the destination is
untouched — no payload is downloaded, no signature is re-verified, and no
file presence is checked. -/
theorem sync_up_to_date_unchecked (digestFn : DigestFn) (hmacFn : HmacFn)
    (cfg : Config) (st : Store) (n : String) (req : VersionReq)
    (dest : DestDir) (now : String) (m : SyncMetadata) (t : Version)
    (h₁ : last_version st n req = .ok (some t))
    (h₂ : dest.meta n = some m)
    (h₃ : m.artifact.version = t) :
    sync digestFn hmacFn cfg st n req dest now
      = (.ok ⟨m.artifact, .upToDate⟩, dest) := by
  simp [sync, h₁, h₂, h₃]

theorem sync_up_to_date_unchecked_witness :
    (last_version exStore "a" starReq = .ok (some exVersion)) ∧
    (staleDest.meta "a" = some exMeta) ∧
    (exMeta.artifact.version = exVersion) ∧
    (∀ f ∈ exMeta.artifact.files, staleDest.files f.name = none) ∧
    sync exDigest exHmac exCfg exStore "a" starReq staleDest "t9"
      = (.ok ⟨exMeta.artifact, .upToDate⟩, staleDest) :=
  ⟨by decide, by decide, by decide,
   fun f _ => rfl,
   sync_up_to_date_unchecked exDigest exHmac exCfg exStore "a" starReq staleDest
     "t9" exMeta exVersion (by decide) (by decide) (by decide)⟩

end Binrep
